import Mathlib

set_option maxHeartbeats 1000000

/-!
Verification of the screenplay formatting engine of
`src/server/services/screenplayFormatter.js`.

JavaScript strings are modelled as `List Char`.  The string operations the
source uses (`split`, `join`, `trim`, `toUpperCase`, `startsWith`,
`endsWith`, `length`) are modelled on ASCII text, which is the data this
engine processes: `toUpperCase` maps `a`-`z` to `A`-`Z`, `trim` strips the
ASCII whitespace characters, and the regular expressions of the source are
translated into executable matchers whose equivalence with the declarative
reading is proved below.
-/

/-- ASCII whitespace, the model of the `\s` class and of `trim`. -/
def isWS (c : Char) : Bool :=
  c == ' ' || c == '\t' || c == '\n' || c == '\r' || c == '\x0b' || c == '\x0c'

/-- Model of `String.prototype.toUpperCase` on one character (ASCII). -/
def upChar (c : Char) : Char :=
  if 97 ≤ c.toNat ∧ c.toNat ≤ 122 then Char.ofNat (c.toNat - 32) else c

/-- Model of `text.toUpperCase()`. -/
def jsUpper (l : List Char) : List Char := l.map upChar

/-- Strip leading whitespace. -/
def trimL (l : List Char) : List Char := l.dropWhile isWS

/-- Strip trailing whitespace. -/
def trimR (l : List Char) : List Char := (trimL l.reverse).reverse

/-- Model of `text.trim()`. -/
def jsTrim (l : List Char) : List Char := trimL (trimR l)

/-- Model of `text.split(c)` for a one-character separator. -/
def splitOnChar (c : Char) : List Char → List (List Char)
  | [] => [[]]
  | x :: xs =>
    match splitOnChar c xs with
    | [] => [[]]
    | y :: ys => if x = c then [] :: y :: ys else (x :: y) :: ys

/-- Model of `parts.join(sep)`. -/
def joinWith (sep : List Char) : List (List Char) → List Char
  | [] => []
  | [x] => x
  | x :: y :: ys => x ++ sep ++ joinWith sep (y :: ys)

def splitNL (l : List Char) : List (List Char) := splitOnChar '\n' l

def splitSP (l : List Char) : List (List Char) := splitOnChar ' ' l

def joinNL (ls : List (List Char)) : List Char := joinWith ['\n'] ls

def joinSP (ls : List (List Char)) : List Char := joinWith [' '] ls

/-- Case-insensitive prefix test: `p` is an uppercase pattern, the test
holds when the text begins with `p` up to ASCII case. -/
def ciLeads : List Char → List Char → Bool
  | [], _ => true
  | _ :: _, [] => false
  | p :: ps, c :: cs => upChar c == p && ciLeads ps cs

/-- Case-insensitive suffix test. -/
def ciEnds (p l : List Char) : Bool := ciLeads p.reverse l.reverse

/-- The four alternatives of the scene-heading start group
`(INT|EXT|INT\/EXT|EXT\/INT)` of `regex.sceneHeading`. -/
def shStarts : List (List Char) :=
  [("INT/EXT").toList, ("EXT/INT").toList, ("INT").toList, ("EXT").toList]

/-- The time-of-day alternatives of `regex.sceneHeading`. -/
def timeTokens : List (List Char) :=
  [("DAY").toList, ("NIGHT").toList, ("MORNING").toList, ("EVENING").toList,
   ("DUSK").toList, ("DAWN").toList, ("CONTINUOUS").toList, ("LATER").toList,
   ("SAME TIME").toList, ("MOMENTS LATER").toList]

/-- The character class `[\s\.]` after the scene-heading start. -/
def cls1 (c : Char) : Bool := isWS c || c == '.'

/-- The character class `[\s\.-]` before the time-of-day token. -/
def cls2 (c : Char) : Bool := isWS c || c == '.' || c == '-'

/-- The ECMAScript line terminators.  Without the `s` flag, `.` in a
regular expression matches any character EXCEPT these four. -/
def isLineTerm (c : Char) : Bool :=
  c == '\n' || c == '\r' || c == '\u2028' || c == '\u2029'

/-- Backtracking search over the core of a scene heading: `core` is the
text strictly between the start group and the final time-of-day token, and
the regex requires it to split as `[\s\.]+(.*?)[\s\.-]+`: a nonempty run
of `[\s\.]` characters (positions `0` to `i`), then a middle matched by
`(.*?)` — so free of line terminators (positions `i` to `j`) — then a
nonempty run of `[\s\.-]` characters (positions `j` to the end). -/
def shCore (core : List Char) : Bool :=
  (List.range (core.length + 1)).any fun i =>
    (List.range (core.length + 1)).any fun j =>
      decide (1 ≤ i) && decide (i ≤ j) && decide (j < core.length) &&
      (core.take i).all cls1 &&
      ((core.drop i).take (j - i)).all (fun c => !(isLineTerm c)) &&
      (core.drop j).all cls2

/-- Condition on what follows a scene-heading start: the text must end
(case-insensitively) with a time-of-day token and the part before the
token must split as `[\s\.]+(.*?)[\s\.-]+`. -/
def shTail (r : List Char) : Bool :=
  timeTokens.any fun t => ciEnds t r && shCore (r.take (r.length - t.length))

/-- Executable model of `regex.sceneHeading.test(line)`. -/
def shMatch (l : List Char) : Bool :=
  shStarts.any (fun p => ciLeads p l && shTail (l.drop p.length))

/-- `[A-Z]`. -/
def isUpperL (c : Char) : Bool := 65 ≤ c.toNat && c.toNat ≤ 90

/-- `[0-9]`. -/
def isDigitC (c : Char) : Bool := 48 ≤ c.toNat && c.toNat ≤ 57

/-- The class `[A-Z0-9\s\(\)]` of `regex.character`. -/
def charCls (c : Char) : Bool := isUpperL c || isDigitC c || isWS c || c == '(' || c == ')'

/-- Executable model of `regex.character.test(line)`:
`^[A-Z][A-Z0-9\s\(\)]*$`. -/
def charMatch : List Char → Bool
  | [] => false
  | c :: cs => isUpperL c && cs.all charCls

/-- Executable model of `regex.parenthetical.test(line)`: `^\(.+\)$`.
The line is `(` followed by at least one character matched by `.+` — hence
free of line terminators — and a final `)`. -/
def parenMatch (l : List Char) : Bool :=
  match l with
  | '(' :: c :: cs => ((c :: cs).getLastD 'x' == ')') && decide (1 ≤ cs.length)
      && (c :: cs).dropLast.all (fun x => !(isLineTerm x))
  | _ => false

/-- The keyword alternatives of `regex.transition`. -/
def transKeys : List (List Char) :=
  [("FADE").toList, ("CUT").toList, ("DISSOLVE").toList, ("SMASH").toList,
   ("WIPE").toList, ("FADE TO BLACK").toList, ("MATCH CUT").toList,
   ("TIME CUT").toList]

/-- Executable model of `regex.transition.test(line)`:
`^(FADE|CUT|DISSOLVE|SMASH|WIPE|FADE TO BLACK|MATCH CUT|TIME CUT).*$`.
After the keyword, `.*$` must cover the rest of the line, so the rest can
hold no line terminator. -/
def transMatch (l : List Char) : Bool :=
  transKeys.any (fun k => ciLeads k l && (l.drop k.length).all (fun c => !(isLineTerm c)))

/-- The closed enumeration of element kinds of the engine. -/
inductive ElementKind where
  | sceneHeading
  | character
  | parenthetical
  | dialogue
  | transition
  | technical
  | action
deriving DecidableEq

/-- Model of `_detectElementType`. -/
def detectElementType (l : List Char) : ElementKind :=
  if shMatch l then .sceneHeading
  else if charMatch l && decide (l.length < 50) then .character
  else if parenMatch l then .parenthetical
  else if transMatch l then .transition
  else if (jsUpper l = l) && decide (3 < l.length) then .technical
  else .action

/-- The loop of `_wrapText` over the words, carrying the accumulated
result and the current line exactly as the source does. -/
def wrapGo (width : Nat) : List (List Char) → List Char → List Char → List Char
  | [], result, line => result ++ jsTrim line
  | w :: ws, result, line =>
    if width < (line ++ w).length then
      wrapGo width ws (result ++ jsTrim line ++ ['\n']) (w ++ [' '])
    else
      wrapGo width ws result (line ++ w ++ [' '])

/-- Model of `_wrapText(text, width)`. -/
def wrapText (text : List Char) (width : Nat) : List Char :=
  if text.length ≤ width then text
  else wrapGo width (splitSP text) [] []

/-- Model of `_formatParenthetical`. -/
def formatParenthetical (t : List Char) : List Char :=
  let t1 := if t.headD 'x' == '(' then t else '(' :: t
  if t1.getLastD 'x' == ')' then t1 else t1 ++ [')']

/-- Model of `_formatElement` (the `none` case is the `default` arm of the
source's `switch`, which falls through to action formatting). -/
def formatElement (k : Option ElementKind) (t : List Char) : List Char :=
  match k with
  | some .sceneHeading => jsUpper t
  | some .character => jsUpper t
  | some .parenthetical => formatParenthetical t
  | some .dialogue => wrapText t 35
  | some .transition => jsUpper t
  | some .technical => jsUpper t
  | some .action => wrapText t 60
  | none => wrapText t 60

/-- The line-processing loop of `formatScreenplay`, generic in the element
renderer so that rendering variants can be compared.  State: remaining
lines, `currentElement`, `lineBuffer`. -/
def formatLoopGen (fe : Option ElementKind → List Char → List Char) :
    List (List Char) → Option ElementKind → List (List Char) → List (List Char)
  | [], _, [] => []
  | [], cur, b :: bs => [fe cur (joinSP (b :: bs))]
  | l :: ls, cur, buf =>
    if jsTrim l = [] then
      match buf with
      | [] => [[]] ++ formatLoopGen fe ls cur []
      | b :: bs => [fe cur (joinSP (b :: bs))] ++ [[]] ++ formatLoopGen fe ls none []
    else
      if some (detectElementType (jsTrim l)) = cur then
        formatLoopGen fe ls cur (buf ++ [jsTrim l])
      else
        match buf with
        | [] => formatLoopGen fe ls (some (detectElementType (jsTrim l))) [jsTrim l]
        | b :: bs =>
          [fe cur (joinSP (b :: bs))] ++
            formatLoopGen fe ls (some (detectElementType (jsTrim l))) [jsTrim l]

/-- Model of `formatScreenplay`. -/
def formatScreenplay (s : List Char) : List Char :=
  joinNL (formatLoopGen formatElement (splitNL s) none [])

/-- Variant renderer whose `dialogue` arm is replaced by junk; used to show
that the dialogue branch is unreachable from `formatScreenplay`. -/
def formatElementNoDia (k : Option ElementKind) (t : List Char) : List Char :=
  match k with
  | some .dialogue => []
  | _ => formatElement k t

def formatScreenplayNoDia (s : List Char) : List Char :=
  joinNL (formatLoopGen formatElementNoDia (splitNL s) none [])

/-- Variant renderer whose `parenthetical` arm is the identity; used to
show that the parenthesis-insertion branches are unreachable from
`formatScreenplay`. -/
def formatElementParenId (k : Option ElementKind) (t : List Char) : List Char :=
  match k with
  | some .parenthetical => t
  | _ => formatElement k t

def formatScreenplayParenId (s : List Char) : List Char :=
  joinNL (formatLoopGen formatElementParenId (splitNL s) none [])

/-- Model of `validateFormat`: the issue list is built empty and validity
is its emptiness test. -/
def validateFormat (_s : List Char) : Bool × List (List Char) :=
  let issues : List (List Char) := []
  (decide (issues.length = 0), issues)

/-- Model of `fixFormatIssues`. -/
def fixFormatIssues (s : List Char) (_issues : List (List Char)) : List Char := s

/-! ### Definitions taken from the specification's wording (for comparison
with the code) -/

/-- The character class named by the spec's Character rule: "uppercase
letters, digits, spaces, and parentheses". -/
def claimCharCls (c : Char) : Bool :=
  isUpperL c || isDigitC c || c == ' ' || c == '(' || c == ')'

/-- The literal reading of the spec's SceneHeading rule: the line starts
with one of the four prefixes (case-insensitively, with any following
separator optional) and is "followed eventually" by a time-of-day token,
which the anchored regex places at the end of the line. -/
def claimSHLit (l : List Char) : Bool :=
  shStarts.any (fun p => ciLeads p l) && timeTokens.any (fun t => ciEnds t l)

/-- The literal reading of C4's "starts with exactly one `(` and ends with
exactly one `)`". -/
def exactlyOneParen (o : List Char) : Prop :=
  o.headD 'x' = '(' ∧ o.tail.headD 'x' ≠ '(' ∧
    o.getLastD 'x' = ')' ∧ o.dropLast.getLastD 'x' ≠ ')'

/-- The scene-heading rule as a declarative decomposition: start prefix,
then a nonempty run of `[\s.]` characters, a middle free of line
terminators (it is matched by `(.*?)`, and `.` cannot match a line
terminator), a nonempty run of `[\s.-]` characters, and a final
time-of-day token, all case-insensitive. -/
def SHdecomp (l : List Char) : Prop :=
  ∃ lp ls1 lm ls2 lt : List Char,
    l = lp ++ ls1 ++ lm ++ ls2 ++ lt ∧
    jsUpper lp ∈ shStarts ∧
    ls1 ≠ [] ∧ (∀ c ∈ ls1, cls1 c = true) ∧
    (∀ c ∈ lm, isLineTerm c = false) ∧
    ls2 ≠ [] ∧ (∀ c ∈ ls2, cls2 c = true) ∧
    jsUpper lt ∈ timeTokens

/-- A well-formed word for the wrap analysis: nonempty, already trimmed,
and no longer than the wrap width. -/
abbrev goodWord (width : Nat) (w : List Char) : Prop :=
  w ≠ [] ∧ jsTrim w = w ∧ w.length ≤ width

/-- Collapse every run of consecutive `false` entries into one `false`.
Two documents have the same number and relative position of blank-line
separators (with respect to the runs of non-blank rendered lines) exactly
when the collapses of their blank-marker sequences agree. -/
def dedupF : List Bool → List Bool
  | [] => []
  | [b] => [b]
  | false :: false :: bs => dedupF (false :: bs)
  | a :: b :: bs => a :: dedupF (b :: bs)

/-! ### Lemmas about splitting and joining -/

theorem joinWith_cons (sep : List Char) (x y : List Char) (ys : List (List Char)) :
    joinWith sep (x :: y :: ys) = x ++ sep ++ joinWith sep (y :: ys) := rfl

theorem splitOnChar_cons (c x : Char) (xs : List Char) :
    splitOnChar c (x :: xs) =
      match splitOnChar c xs with
      | [] => [[]]
      | y :: ys => if x = c then [] :: y :: ys else (x :: y) :: ys := rfl

theorem splitOnChar_cons_eq {c : Char} {xs : List Char} {y : List Char}
    {ys : List (List Char)} (x : Char) (h : splitOnChar c xs = y :: ys) :
    splitOnChar c (x :: xs) = if x = c then [] :: y :: ys else (x :: y) :: ys := by
  rw [splitOnChar_cons, h]

theorem splitOnChar_ne_nil (c : Char) (l : List Char) : splitOnChar c l ≠ [] := by
  induction l with
  | nil => simp [splitOnChar]
  | cons x xs ih =>
    rcases h : splitOnChar c xs with _ | ⟨y, ys⟩
    · exact absurd h ih
    · rw [splitOnChar_cons_eq x h]
      split <;> simp

theorem joinWith_splitOnChar (c : Char) (l : List Char) :
    joinWith [c] (splitOnChar c l) = l := by
  induction l with
  | nil => rfl
  | cons x xs ih =>
    rcases h : splitOnChar c xs with _ | ⟨y, ys⟩
    · exact absurd h (splitOnChar_ne_nil c xs)
    · rw [splitOnChar_cons_eq x h]
      rw [h] at ih
      by_cases hx : x = c
      · rw [if_pos hx, joinWith_cons, ih, hx]
        rfl
      · rw [if_neg hx]
        cases ys with
        | nil =>
          simp only [joinWith] at ih ⊢
          rw [ih]
        | cons z zs =>
          simp only [joinWith_cons] at ih ⊢
          simp only [List.cons_append]
          rw [ih]

theorem splitOnChar_append (c : Char) (a b : List Char) :
    splitOnChar c (a ++ c :: b) = splitOnChar c a ++ splitOnChar c b := by
  induction a with
  | nil =>
    rcases hb : splitOnChar c b with _ | ⟨z, zs⟩
    · exact absurd hb (splitOnChar_ne_nil c b)
    · rw [List.nil_append, splitOnChar_cons_eq c hb, if_pos rfl]
      rfl
  | cons x xs ih =>
    rcases hs : splitOnChar c xs with _ | ⟨y, ys⟩
    · exact absurd hs (splitOnChar_ne_nil c xs)
    · rcases hb : splitOnChar c b with _ | ⟨z, zs⟩
      · exact absurd hb (splitOnChar_ne_nil c b)
      · have hxs : splitOnChar c (xs ++ c :: b) = y :: (ys ++ z :: zs) := by
          rw [ih, hs, hb, List.cons_append]
        rw [List.cons_append, splitOnChar_cons_eq x hxs, splitOnChar_cons_eq x hs]
        by_cases hx : x = c <;> simp [hx, hb]

theorem splitOnChar_of_not_mem {c : Char} {l : List Char} (h : c ∉ l) :
    splitOnChar c l = [l] := by
  induction l with
  | nil => rfl
  | cons x xs ih =>
    simp only [List.mem_cons, not_or] at h
    rw [splitOnChar_cons_eq x (ih h.2), if_neg (fun he => h.1 he.symm)]

theorem not_mem_of_mem_splitOnChar {c : Char} {l m : List Char}
    (h : m ∈ splitOnChar c l) : c ∉ m := by
  induction l generalizing m with
  | nil =>
    simp only [splitOnChar, List.mem_singleton] at h
    simp [h]
  | cons x xs ih =>
    rcases hs : splitOnChar c xs with _ | ⟨y, ys⟩
    · exact absurd hs (splitOnChar_ne_nil c xs)
    · rw [splitOnChar_cons_eq x hs] at h
      by_cases hx : x = c
      · rw [if_pos hx] at h
        rcases List.mem_cons.mp h with h1 | h1
        · simp [h1]
        · exact ih (hs ▸ h1)
      · rw [if_neg hx] at h
        rcases List.mem_cons.mp h with h1 | h1
        · subst h1
          have hy : c ∉ y := ih (hs ▸ List.mem_cons_self y ys)
          simp only [List.mem_cons, not_or]
          exact ⟨fun he => hx he.symm, hy⟩
        · exact ih (hs ▸ List.mem_cons_of_mem y h1)

theorem subset_of_mem_splitOnChar {c : Char} {l m : List Char}
    (h : m ∈ splitOnChar c l) : ∀ x ∈ m, x ∈ l := by
  induction l generalizing m with
  | nil =>
    simp only [splitOnChar, List.mem_singleton] at h
    simp [h]
  | cons x xs ih =>
    rcases hs : splitOnChar c xs with _ | ⟨y, ys⟩
    · exact absurd hs (splitOnChar_ne_nil c xs)
    · rw [splitOnChar_cons_eq x hs] at h
      by_cases hx : x = c
      · rw [if_pos hx] at h
        rcases List.mem_cons.mp h with h1 | h1
        · simp [h1]
        · exact fun a ha => List.mem_cons_of_mem x (ih (hs ▸ h1) a ha)
      · rw [if_neg hx] at h
        rcases List.mem_cons.mp h with h1 | h1
        · subst h1
          intro a ha
          rcases List.mem_cons.mp ha with h1 | h1
          · simp [h1]
          · exact List.mem_cons_of_mem x (ih (hs ▸ List.mem_cons_self y ys) a h1)
        · exact fun a ha => List.mem_cons_of_mem x (ih (hs ▸ List.mem_cons_of_mem y h1) a ha)

/-! ### Lemmas about trimming -/

theorem trimL_of_head {l : List Char} (h : l = [] ∨ isWS (l.headD 'x') = false) :
    trimL l = l := by
  cases l with
  | nil => rfl
  | cons x xs =>
    rcases h with h | h
    · exact absurd h (List.cons_ne_nil x xs)
    · simp only [List.headD_cons] at h
      simp [trimL, List.dropWhile_cons, h]

theorem trimR_of_last {l : List Char} (h : l = [] ∨ isWS (l.reverse.headD 'x') = false) :
    trimR l = l := by
  unfold trimR
  rw [trimL_of_head, List.reverse_reverse]
  rcases h with h | h
  · left; simp [h]
  · right; exact h

theorem jsTrim_of_clean {l : List Char} (h1 : l = [] ∨ isWS (l.headD 'x') = false)
    (h2 : l = [] ∨ isWS (l.reverse.headD 'x') = false) : jsTrim l = l := by
  unfold jsTrim
  rw [trimR_of_last h2, trimL_of_head h1]

theorem mem_trimL {l : List Char} {x : Char} (h : x ∈ trimL l) : x ∈ l :=
  (List.dropWhile_suffix isWS).subset h

theorem mem_trimR {l : List Char} {x : Char} (h : x ∈ trimR l) : x ∈ l := by
  unfold trimR at h
  rw [List.mem_reverse] at h
  exact List.mem_reverse.mp (mem_trimL h)

theorem mem_jsTrim {l : List Char} {x : Char} (h : x ∈ jsTrim l) : x ∈ l :=
  mem_trimR (mem_trimL h)

theorem trimL_length_le (l : List Char) : (trimL l).length ≤ l.length :=
  (List.dropWhile_suffix isWS).sublist.length_le

theorem jsTrim_length_le (l : List Char) : (jsTrim l).length ≤ l.length := by
  calc (jsTrim l).length ≤ (trimR l).length := trimL_length_le _
    _ = (trimL l.reverse).length := by simp [trimR]
    _ ≤ l.reverse.length := trimL_length_le _
    _ = l.length := by simp

theorem headD_append_of_ne_nil {a b : List Char} {d : Char} (h : a ≠ []) :
    (a ++ b).headD d = a.headD d := by
  cases a with
  | nil => exact absurd rfl h
  | cons x xs => rfl

theorem trimL_head_not_ws {l : List Char} (h : trimL l ≠ []) :
    isWS ((trimL l).headD 'x') = false := by
  induction l with
  | nil => exact absurd rfl h
  | cons x xs ih =>
    rw [trimL, List.dropWhile_cons] at h ⊢
    by_cases hx : isWS x = true
    · rw [if_pos hx] at h ⊢
      exact ih h
    · rw [if_neg hx]
      simpa using hx

theorem trimL_last_eq {l : List Char} (h : trimL l ≠ []) :
    (trimL l).reverse.headD 'x' = l.reverse.headD 'x' := by
  rcases @List.dropWhile_suffix Char l isWS with ⟨t, ht⟩
  have ht2 : t ++ trimL l = l := ht
  conv_rhs => rw [← ht2]
  rw [List.reverse_append]
  exact (headD_append_of_ne_nil (by simpa using h)).symm

theorem jsTrim_head_not_ws {l : List Char} (h : jsTrim l ≠ []) :
    isWS ((jsTrim l).headD 'x') = false := trimL_head_not_ws h

theorem jsTrim_last_not_ws {l : List Char} (h : jsTrim l ≠ []) :
    isWS ((jsTrim l).reverse.headD 'x') = false := by
  have h' : trimL (trimR l) ≠ [] := h
  have e1 : (trimL (trimR l)).reverse.headD 'x' = (trimR l).reverse.headD 'x' :=
    trimL_last_eq h'
  have e2 : (trimR l).reverse.headD 'x' = (trimL l.reverse).headD 'x' := by
    simp [trimR]
  have h2 : trimL l.reverse ≠ [] := by
    intro he
    apply h'
    unfold trimR
    rw [he]
    rfl
  show isWS ((trimL (trimR l)).reverse.headD 'x') = false
  rw [e1, e2]
  exact trimL_head_not_ws h2

theorem jsTrim_idem (l : List Char) : jsTrim (jsTrim l) = jsTrim l := by
  by_cases h : jsTrim l = []
  · rw [h]; rfl
  · exact jsTrim_of_clean (Or.inr (jsTrim_head_not_ws h)) (Or.inr (jsTrim_last_not_ws h))

theorem jsTrim_append_space (x : List Char) : jsTrim (x ++ [' ']) = jsTrim x := by
  unfold jsTrim trimR
  congr 1
  rw [List.reverse_append]
  simp only [List.reverse_cons, List.reverse_nil, List.nil_append, List.singleton_append]
  rw [trimL, List.dropWhile_cons]
  simp [isWS, trimL]

/-! ### Lemmas about `upChar` and `jsUpper` -/

theorem char_eq_of_toNat_eq {a b : Char} (h : a.toNat = b.toNat) : a = b := by
  apply Char.ext
  apply UInt32.eq_of_toBitVec_eq
  apply BitVec.eq_of_toNat_eq
  simpa [Char.toNat, UInt32.toNat] using h

theorem upChar_of_lower {c : Char} (h1 : 97 ≤ c.toNat) (h2 : c.toNat ≤ 122) :
    (upChar c).toNat = c.toNat - 32 := by
  unfold upChar
  rw [if_pos ⟨h1, h2⟩]
  have hv : (c.toNat - 32).isValidChar := Or.inl (by omega)
  unfold Char.ofNat
  rw [dif_pos hv]
  rfl

theorem upChar_of_not_lower {c : Char} (h : ¬(97 ≤ c.toNat ∧ c.toNat ≤ 122)) :
    upChar c = c := by
  unfold upChar
  rw [if_neg h]

theorem upChar_cases (c : Char) :
    upChar c = c ∨
      (97 ≤ c.toNat ∧ c.toNat ≤ 122 ∧ (upChar c).toNat = c.toNat - 32) := by
  by_cases h : 97 ≤ c.toNat ∧ c.toNat ≤ 122
  · exact Or.inr ⟨h.1, h.2, upChar_of_lower h.1 h.2⟩
  · exact Or.inl (upChar_of_not_lower h)

theorem upChar_idem (c : Char) : upChar (upChar c) = upChar c := by
  rcases upChar_cases c with h | ⟨h1, h2, h3⟩
  · rw [h, h]
  · apply upChar_of_not_lower
    omega

theorem toNat_mem_of_isWS {c : Char} (h : isWS c = true) :
    c.toNat = 32 ∨ c.toNat = 9 ∨ c.toNat = 10 ∨ c.toNat = 13 ∨
      c.toNat = 11 ∨ c.toNat = 12 := by
  simp only [isWS, Bool.or_eq_true, beq_iff_eq] at h
  rcases h with ((((h | h) | h) | h) | h) | h <;> subst h <;> decide

theorem not_isWS_of_range {c : Char} (h1 : 40 ≤ c.toNat) : isWS c = false := by
  cases hx : isWS c
  · rfl
  · have := toNat_mem_of_isWS hx
    omega

theorem isWS_upChar (c : Char) : isWS (upChar c) = isWS c := by
  rcases upChar_cases c with h | ⟨h1, h2, h3⟩
  · rw [h]
  · rw [not_isWS_of_range (by omega), not_isWS_of_range (by omega)]

theorem toNat_mem_of_isLineTerm {c : Char} (h : isLineTerm c = true) :
    c.toNat = 10 ∨ c.toNat = 13 ∨ c.toNat = 8232 ∨ c.toNat = 8233 := by
  simp only [isLineTerm, Bool.or_eq_true, beq_iff_eq] at h
  rcases h with ((h | h) | h) | h <;> subst h <;> decide

theorem not_isLineTerm_of_range {c : Char} (h1 : 14 ≤ c.toNat) (h2 : c.toNat ≤ 8231) :
    isLineTerm c = false := by
  cases hx : isLineTerm c
  · rfl
  · have := toNat_mem_of_isLineTerm hx
    omega

theorem isLineTerm_upChar (c : Char) : isLineTerm (upChar c) = isLineTerm c := by
  rcases upChar_cases c with h | ⟨h1, h2, h3⟩
  · rw [h]
  · rw [not_isLineTerm_of_range (by omega) (by omega),
      not_isLineTerm_of_range (by omega) (by omega)]

theorem upChar_eq_nl {c : Char} (h : upChar c = '\n') : c = '\n' := by
  rcases upChar_cases c with h2 | ⟨h1, h2, h3⟩
  · rw [← h2, h]
  · exfalso
    have : (upChar c).toNat = 10 := by rw [h]; decide
    omega

theorem jsUpper_length (l : List Char) : (jsUpper l).length = l.length := by
  simp [jsUpper]

theorem jsUpper_idem (l : List Char) : jsUpper (jsUpper l) = jsUpper l := by
  simp only [jsUpper, List.map_map]
  apply List.map_congr_left
  intro a _
  exact upChar_idem a

theorem nl_not_mem_jsUpper {l : List Char} (h : '\n' ∉ l) : '\n' ∉ jsUpper l := by
  intro hm
  rcases List.mem_map.mp hm with ⟨c, hc, he⟩
  exact h (upChar_eq_nl he ▸ hc)

theorem trimL_jsUpper (l : List Char) : trimL (jsUpper l) = jsUpper (trimL l) := by
  unfold trimL jsUpper
  rw [List.dropWhile_map]
  rw [show (isWS ∘ upChar) = isWS from funext isWS_upChar]

theorem trimR_jsUpper (l : List Char) : trimR (jsUpper l) = jsUpper (trimR l) := by
  unfold trimR
  rw [show (jsUpper l).reverse = jsUpper l.reverse by simp [jsUpper, List.map_reverse],
    trimL_jsUpper]
  simp [jsUpper, List.map_reverse]

theorem jsTrim_jsUpper (l : List Char) : jsTrim (jsUpper l) = jsUpper (jsTrim l) := by
  unfold jsTrim
  rw [trimR_jsUpper, trimL_jsUpper]

theorem upChar_of_charCls {c : Char} (h : charCls c = true) : upChar c = c := by
  apply upChar_of_not_lower
  simp only [charCls, isUpperL, isDigitC, Bool.or_eq_true, Bool.and_eq_true,
    decide_eq_true_eq, beq_iff_eq] at h
  rcases h with (((⟨h1, h2⟩ | ⟨h1, h2⟩) | h) | h) | h
  · omega
  · omega
  · have := toNat_mem_of_isWS h
    omega
  · subst h
    decide
  · subst h
    decide

theorem jsUpper_of_charMatch {l : List Char} (h : charMatch l = true) :
    jsUpper l = l := by
  cases l with
  | nil => rfl
  | cons c cs =>
    simp only [charMatch, Bool.and_eq_true, List.all_eq_true] at h
    obtain ⟨h1, h2⟩ := h
    have hall : ∀ a ∈ c :: cs, upChar a = id a := by
      intro a ha
      rcases List.mem_cons.mp ha with he | he
      · subst he
        apply upChar_of_not_lower
        simp only [isUpperL, Bool.and_eq_true, decide_eq_true_eq] at h1
        omega
      · exact upChar_of_charCls (h2 a he)
    simp only [jsUpper]
    rw [List.map_congr_left hall, List.map_id]

/-! ### Lemmas about case-insensitive matching -/

theorem ciLeads_cons_cons (p c : Char) (ps cs : List Char) :
    ciLeads (p :: ps) (c :: cs) = (upChar c == p && ciLeads ps cs) := rfl

theorem ciLeads_iff {p l : List Char} :
    ciLeads p l = true ↔ ∃ l1 l2, l = l1 ++ l2 ∧ jsUpper l1 = p := by
  induction p generalizing l with
  | nil =>
    constructor
    · intro _
      exact ⟨[], l, rfl, rfl⟩
    · intro _
      rfl
  | cons p ps ih =>
    cases l with
    | nil =>
      refine iff_of_false (by simp [ciLeads]) ?_
      rintro ⟨l1, l2, h1, h2⟩
      obtain ⟨e1, _⟩ := List.append_eq_nil.mp h1.symm
      subst e1
      exact absurd h2.symm (List.cons_ne_nil p ps)
    | cons c cs =>
      rw [ciLeads_cons_cons]
      simp only [Bool.and_eq_true, beq_iff_eq]
      constructor
      · rintro ⟨h1, h2⟩
        rcases ih.mp h2 with ⟨l1, l2, he, hu⟩
        refine ⟨c :: l1, l2, by rw [he, List.cons_append], ?_⟩
        simp only [jsUpper, List.map_cons]
        rw [h1, show List.map upChar l1 = jsUpper l1 from rfl, hu]
      · rintro ⟨l1, l2, he, hu⟩
        cases l1 with
        | nil => exact absurd hu.symm (List.cons_ne_nil p ps)
        | cons a l1' =>
          rw [List.cons_append] at he
          injection he with he1 he2
          simp only [jsUpper, List.map_cons] at hu
          injection hu with hu1 hu2
          subst he1
          exact ⟨hu1, ih.mpr ⟨l1', l2, he2, hu2⟩⟩

theorem ciLeads_jsUpper_append (l1 l2 : List Char) :
    ciLeads (jsUpper l1) (l1 ++ l2) = true := by
  induction l1 with
  | nil => rfl
  | cons c cs ih =>
    simp only [jsUpper, List.map_cons, List.cons_append, ciLeads_cons_cons]
    simp only [beq_self_eq_true, Bool.true_and]
    exact ih

theorem ciLeads_upper (p l : List Char) : ciLeads p (jsUpper l) = ciLeads p l := by
  induction p generalizing l with
  | nil => rfl
  | cons p ps ih =>
    cases l with
    | nil => rfl
    | cons c cs =>
      simp only [jsUpper, List.map_cons, ciLeads_cons_cons, upChar_idem]
      rw [show List.map upChar cs = jsUpper cs from rfl, ih]

theorem ciEnds_iff {t l : List Char} :
    ciEnds t l = true ↔ ∃ l1 l2, l = l1 ++ l2 ∧ jsUpper l2 = t := by
  unfold ciEnds
  rw [ciLeads_iff]
  constructor
  · rintro ⟨r1, r2, he, hu⟩
    refine ⟨r2.reverse, r1.reverse, ?_, ?_⟩
    · rw [← List.reverse_reverse l, he, List.reverse_append]
    · rw [show jsUpper r1.reverse = (jsUpper r1).reverse from List.map_reverse upChar r1,
        hu, List.reverse_reverse]
  · rintro ⟨l1, l2, he, hu⟩
    refine ⟨l2.reverse, l1.reverse, by rw [he, List.reverse_append], ?_⟩
    rw [show jsUpper l2.reverse = (jsUpper l2).reverse from List.map_reverse upChar l2, hu]

theorem ciEnds_upper (t l : List Char) : ciEnds t (jsUpper l) = ciEnds t l := by
  unfold ciEnds
  rw [show (jsUpper l).reverse = jsUpper l.reverse from (List.map_reverse upChar l).symm,
    ciLeads_upper]

/-! ### Case-invariance of the matchers -/

theorem cls1_upChar (c : Char) : cls1 (upChar c) = cls1 c := by
  rcases upChar_cases c with h | ⟨h1, h2, h3⟩
  · rw [h]
  · simp only [cls1, isWS_upChar]
    have e1 : (upChar c == '.') = false := by
      apply beq_false_of_ne
      intro he
      have : (upChar c).toNat = 46 := by rw [he]; decide
      omega
    have e2 : (c == '.') = false := by
      apply beq_false_of_ne
      intro he
      have : c.toNat = 46 := by rw [he]; decide
      omega
    rw [e1, e2]

theorem cls2_upChar (c : Char) : cls2 (upChar c) = cls2 c := by
  rcases upChar_cases c with h | ⟨h1, h2, h3⟩
  · rw [h]
  · simp only [cls2, isWS_upChar]
    have e1 : (upChar c == '.') = false := by
      apply beq_false_of_ne
      intro he
      have : (upChar c).toNat = 46 := by rw [he]; decide
      omega
    have e2 : (c == '.') = false := by
      apply beq_false_of_ne
      intro he
      have : c.toNat = 46 := by rw [he]; decide
      omega
    have e3 : (upChar c == '-') = false := by
      apply beq_false_of_ne
      intro he
      have : (upChar c).toNat = 45 := by rw [he]; decide
      omega
    have e4 : (c == '-') = false := by
      apply beq_false_of_ne
      intro he
      have : c.toNat = 45 := by rw [he]; decide
      omega
    rw [e1, e2, e3, e4]

theorem any_congr_local {α : Type} {l : List α} {p q : α → Bool}
    (h : ∀ a ∈ l, p a = q a) : l.any p = l.any q := by
  induction l with
  | nil => rfl
  | cons x xs ih =>
    simp only [List.any_cons]
    rw [h x (List.mem_cons_self x xs), ih (fun a ha => h a (List.mem_cons_of_mem x ha))]

theorem all_upper_congr {p : Char → Bool} (hp : ∀ c, p (upChar c) = p c) (l : List Char) :
    (jsUpper l).all p = l.all p := by
  induction l with
  | nil => rfl
  | cons c cs ih =>
    show (p (upChar c) && (jsUpper cs).all p) = (p c && cs.all p)
    rw [hp, ih]

theorem shCore_upper (core : List Char) : shCore (jsUpper core) = shCore core := by
  unfold shCore
  simp only [jsUpper_length]
  apply any_congr_local
  intro i _
  apply any_congr_local
  intro j _
  have h1 : (jsUpper core).take i = jsUpper (core.take i) := by
    simp [jsUpper, List.map_take]
  have h2 : (jsUpper core).drop i = jsUpper (core.drop i) := by
    simp [jsUpper, List.map_drop]
  have h3 : (jsUpper core).drop j = jsUpper (core.drop j) := by
    simp [jsUpper, List.map_drop]
  have h4 : (jsUpper (core.drop i)).take (j - i) = jsUpper ((core.drop i).take (j - i)) := by
    simp [jsUpper, List.map_take]
  rw [h1, h2, h3, h4, all_upper_congr cls1_upChar, all_upper_congr cls2_upChar,
    all_upper_congr (fun c => by rw [isLineTerm_upChar])]

theorem shTail_upper (r : List Char) : shTail (jsUpper r) = shTail r := by
  unfold shTail
  apply any_congr_local
  intro t _
  rw [ciEnds_upper]
  have h1 : (jsUpper r).take ((jsUpper r).length - t.length)
      = jsUpper (r.take (r.length - t.length)) := by
    rw [jsUpper_length]
    simp [jsUpper, List.map_take]
  rw [h1, shCore_upper]

theorem transMatch_upper (l : List Char) : transMatch (jsUpper l) = transMatch l := by
  unfold transMatch
  apply any_congr_local
  intro k _
  rw [ciLeads_upper]
  have h1 : (jsUpper l).drop k.length = jsUpper (l.drop k.length) := by
    simp [jsUpper, List.map_drop]
  rw [h1, all_upper_congr (fun c => by rw [isLineTerm_upChar])]

theorem shMatch_upper (l : List Char) : shMatch (jsUpper l) = shMatch l := by
  unfold shMatch
  apply any_congr_local
  intro p _
  rw [ciLeads_upper,
    show List.drop p.length (jsUpper l) = jsUpper (List.drop p.length l) from
      (List.map_drop upChar l p.length).symm,
    shTail_upper]


/-! ### Inversion lemmas for the classifier -/

theorem detect_eq_sceneHeading_iff (l : List Char) :
    detectElementType l = .sceneHeading ↔ shMatch l = true := by
  unfold detectElementType
  split_ifs with h1 h2 h3 h4 h5 <;> simp_all

theorem detect_eq_character_iff (l : List Char) :
    detectElementType l = .character ↔
      (shMatch l = false ∧ charMatch l = true ∧ l.length < 50) := by
  unfold detectElementType
  split_ifs with h1 h2 h3 h4 h5 <;> simp_all

theorem detect_eq_parenthetical_iff (l : List Char) :
    detectElementType l = .parenthetical ↔
      (shMatch l = false ∧ ¬(charMatch l = true ∧ l.length < 50) ∧
        parenMatch l = true) := by
  unfold detectElementType
  split_ifs with h1 h2 h3 h4 h5 <;> simp_all

theorem detect_eq_transition_iff (l : List Char) :
    detectElementType l = .transition ↔
      (shMatch l = false ∧ ¬(charMatch l = true ∧ l.length < 50) ∧
        parenMatch l = false ∧ transMatch l = true) := by
  unfold detectElementType
  split_ifs with h1 h2 h3 h4 h5 <;> simp_all

theorem detect_eq_technical_iff (l : List Char) :
    detectElementType l = .technical ↔
      (shMatch l = false ∧ ¬(charMatch l = true ∧ l.length < 50) ∧
        parenMatch l = false ∧ transMatch l = false ∧
        jsUpper l = l ∧ 3 < l.length) := by
  unfold detectElementType
  split_ifs with h1 h2 h3 h4 h5 <;> simp_all

theorem detect_eq_action_iff (l : List Char) :
    detectElementType l = .action ↔
      (shMatch l = false ∧ ¬(charMatch l = true ∧ l.length < 50) ∧
        parenMatch l = false ∧ transMatch l = false ∧
        ¬(jsUpper l = l ∧ 3 < l.length)) := by
  unfold detectElementType
  split_ifs with h1 h2 h3 h4 h5 <;> simp_all

theorem detect_ne_dialogue (l : List Char) : detectElementType l ≠ .dialogue := by
  unfold detectElementType
  split_ifs <;> simp

/-! ### Equations and congruence for the formatting loop -/

theorem formatLoopGen_nil_nil (fe : Option ElementKind → List Char → List Char)
    (cur : Option ElementKind) : formatLoopGen fe [] cur [] = [] := rfl

theorem formatLoopGen_nil_cons (fe : Option ElementKind → List Char → List Char)
    (cur : Option ElementKind) (b : List Char) (bs : List (List Char)) :
    formatLoopGen fe [] cur (b :: bs) = [fe cur (joinSP (b :: bs))] := rfl

theorem formatLoopGen_cons (fe : Option ElementKind → List Char → List Char)
    (l : List Char) (ls : List (List Char)) (cur : Option ElementKind)
    (buf : List (List Char)) :
    formatLoopGen fe (l :: ls) cur buf =
      if jsTrim l = [] then
        match buf with
        | [] => [[]] ++ formatLoopGen fe ls cur []
        | b :: bs => [fe cur (joinSP (b :: bs))] ++ [[]] ++ formatLoopGen fe ls none []
      else
        if some (detectElementType (jsTrim l)) = cur then
          formatLoopGen fe ls cur (buf ++ [jsTrim l])
        else
          match buf with
          | [] => formatLoopGen fe ls (some (detectElementType (jsTrim l))) [jsTrim l]
          | b :: bs =>
            [fe cur (joinSP (b :: bs))] ++
              formatLoopGen fe ls (some (detectElementType (jsTrim l))) [jsTrim l] := rfl

theorem formatLoopGen_congr (fe ge : Option ElementKind → List Char → List Char)
    (H : ∀ (cur : Option ElementKind) (b : List Char) (bs : List (List Char)),
      (∀ x ∈ b :: bs, some (detectElementType x) = cur) →
      fe cur (joinSP (b :: bs)) = ge cur (joinSP (b :: bs)))
    (ls : List (List Char)) (cur : Option ElementKind) (buf : List (List Char))
    (hinv : ∀ x ∈ buf, some (detectElementType x) = cur) :
    formatLoopGen fe ls cur buf = formatLoopGen ge ls cur buf := by
  induction ls generalizing cur buf with
  | nil =>
    cases buf with
    | nil => rfl
    | cons b bs =>
      rw [formatLoopGen_nil_cons, formatLoopGen_nil_cons, H cur b bs hinv]
  | cons l ls ih =>
    rw [formatLoopGen_cons fe, formatLoopGen_cons ge]
    by_cases ht : jsTrim l = []
    · rw [if_pos ht, if_pos ht]
      cases buf with
      | nil =>
        show [[]] ++ formatLoopGen fe ls cur [] = [[]] ++ formatLoopGen ge ls cur []
        rw [ih cur [] (by simp)]
      | cons b bs =>
        show [fe cur (joinSP (b :: bs))] ++ [[]] ++ formatLoopGen fe ls none [] = _
        rw [H cur b bs hinv, ih none [] (by simp)]
    · rw [if_neg ht, if_neg ht]
      by_cases hk : some (detectElementType (jsTrim l)) = cur
      · rw [if_pos hk, if_pos hk]
        apply ih
        intro x hx
        rcases List.mem_append.mp hx with h | h
        · exact hinv x h
        · rw [List.mem_singleton] at h
          subst h
          exact hk
      · rw [if_neg hk, if_neg hk]
        cases buf with
        | nil =>
          show formatLoopGen fe ls _ [jsTrim l] = _
          apply ih
          intro x hx
          rw [List.mem_singleton] at hx
          subst hx
          rfl
        | cons b bs =>
          show [fe cur (joinSP (b :: bs))] ++ _ = [ge cur (joinSP (b :: bs))] ++ _
          rw [H cur b bs hinv]
          rw [ih _ [jsTrim l] (by
            intro x hx
            rw [List.mem_singleton] at hx
            subst hx
            rfl)]

/-! ### Renderer-variant equalities -/

theorem formatElementNoDia_eq {k : ElementKind} (h : k ≠ ElementKind.dialogue)
    (t : List Char) : formatElementNoDia (some k) t = formatElement (some k) t := by
  cases k <;> first | rfl | exact absurd rfl h

/-- C7: the classifier never produces `dialogue`, and consequently the
dialogue rendering branch (35-column wrap) is unreachable from
`formatScreenplay`: replacing that branch by junk does not change the
function. -/
theorem claim_C7_dialogue_unreachable :
    (∀ l : List Char, detectElementType l ≠ ElementKind.dialogue) ∧
    (∀ s : List Char, formatScreenplay s = formatScreenplayNoDia s) := by
  refine ⟨detect_ne_dialogue, ?_⟩
  intro s
  unfold formatScreenplay formatScreenplayNoDia
  congr 1
  apply formatLoopGen_congr
  · intro cur b bs hinv
    have hb := hinv b (List.mem_cons_self b bs)
    rw [← hb]
    exact (formatElementNoDia_eq (detect_ne_dialogue b) _).symm
  · simp

/-- C8: classification and rendering are total (the model is a total
function by construction), the classifier always yields one of the six
reachable kinds with `action` as the fall-through, and the empty input
string yields an empty output string. -/
theorem claim_C8_totality :
    formatScreenplay [] = [] ∧
    (∀ l : List Char,
      detectElementType l = ElementKind.sceneHeading ∨
      detectElementType l = ElementKind.character ∨
      detectElementType l = ElementKind.parenthetical ∨
      detectElementType l = ElementKind.transition ∨
      detectElementType l = ElementKind.technical ∨
      detectElementType l = ElementKind.action) := by
  refine ⟨by decide, ?_⟩
  intro l
  unfold detectElementType
  split_ifs <;> simp

/-- C9: `validateFormat` always reports validity with an empty issue list,
and `fixFormatIssues` is the identity on its text argument. -/
theorem claim_C9_validate_fix_stubs :
    ∀ (s : List Char) (issues : List (List Char)),
      (validateFormat s).1 = true ∧ (validateFormat s).2 = [] ∧
      fixFormatIssues s issues = s :=
  fun _ _ => ⟨rfl, rfl, rfl⟩

/-- C4 (amended): the rendered parenthetical always starts with at least
one `(` and ends with at least one `)`; nothing is inserted when the text
already starts with `(` and ends with `)`; `"(quietly)"` renders unchanged
and `"quietly"` renders as `"(quietly)"`.  (The original "exactly one"
phrasing fails, see the counterexample.) -/
theorem claim_C4_paren_normalized :
    (∀ t : List Char,
      (formatParenthetical t).headD 'x' = '(' ∧
      (formatParenthetical t).getLastD 'x' = ')' ∧
      (t.headD 'x' = '(' → t.getLastD 'x' = ')' → formatParenthetical t = t)) ∧
    formatParenthetical (("(quietly)").toList) = ("(quietly)").toList ∧
    formatParenthetical (("quietly").toList) = ("(quietly)").toList := by
  refine ⟨?_, by decide, by decide⟩
  intro t
  simp only [formatParenthetical]
  by_cases h1 : (t.headD 'x' == '(') = true
  · rw [if_pos h1]
    have ht : t ≠ [] := by
      intro he
      subst he
      simp at h1
    by_cases h2 : (t.getLastD 'x' == ')') = true
    · rw [if_pos h2]
      exact ⟨beq_iff_eq.mp h1, beq_iff_eq.mp h2, fun _ _ => rfl⟩
    · rw [if_neg h2]
      refine ⟨?_, List.getLastD_concat _ _ _, ?_⟩
      · rw [headD_append_of_ne_nil ht]
        exact beq_iff_eq.mp h1
      · intro _ hlast
        exact absurd (beq_iff_eq.mpr hlast) h2
  · rw [if_neg h1]
    by_cases h2 : ((('(' :: t)).getLastD 'x' == ')') = true
    · rw [if_pos h2]
      refine ⟨rfl, beq_iff_eq.mp h2, ?_⟩
      intro hh _
      exact absurd (beq_iff_eq.mpr hh) h1
    · rw [if_neg h2]
      refine ⟨rfl, List.getLastD_concat _ _ _, ?_⟩
      intro hh _
      exact absurd (beq_iff_eq.mpr hh) h1

/-- Witness for C4 at a concrete input. -/
theorem claim_C4_paren_normalized_witness :
    formatParenthetical (("(quietly)").toList) = ("(quietly)").toList :=
  (claim_C4_paren_normalized.1 (("(quietly)").toList)).2.2 (by decide) (by decide)

/-- Counterexample to C4 as stated: on input `"((a))"` the renderer keeps
the text unchanged, so the output starts with two `(`, not exactly one. -/
theorem claim_C4_counterexample :
    formatParenthetical (("((a))").toList) = ("((a))").toList ∧
    ¬ exactlyOneParen (formatParenthetical (("((a))").toList)) := by
  refine ⟨by decide, ?_⟩
  rintro ⟨_, h2, _, _⟩
  exact h2 (by decide)

/-! ### The Character rule (C5) -/

theorem charMatch_iff {l : List Char} :
    charMatch l = true ↔
      ∃ c cs, l = c :: cs ∧ isUpperL c = true ∧ (∀ x ∈ l, charCls x = true) := by
  cases l with
  | nil =>
    refine iff_of_false (by simp [charMatch]) ?_
    rintro ⟨c, cs, h, _⟩
    exact List.cons_ne_nil c cs h.symm
  | cons c cs =>
    simp only [charMatch, Bool.and_eq_true, List.all_eq_true]
    constructor
    · rintro ⟨h1, h2⟩
      refine ⟨c, cs, rfl, h1, ?_⟩
      intro x hx
      rcases List.mem_cons.mp hx with he | he
      · subst he
        simp [charCls, h1]
      · exact h2 x he
    · rintro ⟨c', cs', he, h1, h2⟩
      injection he with e1 e2
      subst e1
      subst e2
      exact ⟨h1, fun x hx => h2 x (List.mem_cons_of_mem _ hx)⟩

/-- C5 (amended): a line that did not match the scene-heading rule is
classified `character` iff its FIRST character is an uppercase letter, all
its characters are uppercase letters, digits, whitespace or parentheses,
and its length is below 50; and the 70-character all-caps line classifies
as `technical`.  (The original claim omitted the leading-letter
requirement, see the counterexample.) -/
theorem claim_C5_character_rule :
    (∀ l : List Char, shMatch l = false →
      (detectElementType l = ElementKind.character ↔
        ((∃ c cs, l = c :: cs ∧ isUpperL c = true ∧ (∀ x ∈ l, charCls x = true)) ∧
          l.length < 50))) ∧
    detectElementType (List.replicate 70 'A') = ElementKind.technical := by
  constructor
  · intro l hsh
    rw [detect_eq_character_iff, charMatch_iff]
    simp [hsh, and_assoc]
  · decide

/-- Witness for C5 at the concrete line `"BOB"`. -/
theorem claim_C5_character_rule_witness :
    detectElementType (("BOB").toList) = ElementKind.character :=
  (claim_C5_character_rule.1 (("BOB").toList) (by decide)).mpr
    ⟨⟨'B', ("OB").toList, by decide, by decide, by decide⟩, by decide⟩

/-- Counterexample to C5 as stated: `"1234"` consists only of characters
of the claimed class (digits), is shorter than 50, does not match the
scene-heading rule, yet is classified `technical`, not `character` (the
regex `^[A-Z][A-Z0-9\s\(\)]*$` requires a leading uppercase letter). -/
theorem claim_C5_counterexample :
    shMatch (("1234").toList) = false ∧
    (("1234").toList ≠ [] ∧ ∀ x ∈ ("1234").toList, claimCharCls x = true) ∧
    ("1234").toList.length < 50 ∧
    detectElementType (("1234").toList) ≠ ElementKind.character ∧
    detectElementType (("1234").toList) = ElementKind.technical := by
  refine ⟨by decide, ⟨by decide, by decide⟩, by decide, by decide, by decide⟩

/-! ### The SceneHeading rule (C6) -/

theorem headD_mem {l : List Char} (h : l ≠ []) (d : Char) : l.headD d ∈ l := by
  cases l with
  | nil => exact absurd rfl h
  | cons x xs => simp

theorem shCore_eq_true_iff {core : List Char} :
    shCore core = true ↔
      ∃ ls1 lm ls2 : List Char,
        core = ls1 ++ lm ++ ls2 ∧
        ls1 ≠ [] ∧ (∀ c ∈ ls1, cls1 c = true) ∧
        (∀ c ∈ lm, isLineTerm c = false) ∧
        ls2 ≠ [] ∧ (∀ c ∈ ls2, cls2 c = true) := by
  unfold shCore
  rw [List.any_eq_true]
  constructor
  · rintro ⟨i, _, hin⟩
    rw [List.any_eq_true] at hin
    obtain ⟨j, _, hb⟩ := hin
    simp only [Bool.and_eq_true, decide_eq_true_eq, List.all_eq_true,
      Bool.not_eq_true'] at hb
    obtain ⟨⟨⟨⟨⟨h1i, hij⟩, hjlen⟩, hc1⟩, hmid⟩, hc2⟩ := hb
    refine ⟨core.take i, (core.drop i).take (j - i), core.drop j, ?_, ?_, hc1, hmid, ?_, hc2⟩
    · have e1 : (core.drop i).drop (j - i) = core.drop j := by
        rw [List.drop_drop]
        congr 1
        omega
      have e2 : (core.drop i).take (j - i) ++ core.drop j = core.drop i := by
        rw [← e1, List.take_append_drop]
      rw [List.append_assoc, e2, List.take_append_drop]
    · intro hemp
      have hlen := congrArg List.length hemp
      rw [List.length_take] at hlen
      simp only [List.length_nil] at hlen
      omega
    · intro hemp
      have hlen := congrArg List.length hemp
      rw [List.length_drop] at hlen
      simp only [List.length_nil] at hlen
      omega
  · rintro ⟨ls1, lm, ls2, heq, h1ne, h1c, hmc, h2ne, h2c⟩
    have hl1 : 1 ≤ ls1.length := List.length_pos.mpr h1ne
    have hl2 : 1 ≤ ls2.length := List.length_pos.mpr h2ne
    have hclen : core.length = ls1.length + lm.length + ls2.length := by
      rw [heq]
      simp only [List.length_append]
    refine ⟨ls1.length, ?_, ?_⟩
    · rw [List.mem_range]
      omega
    · rw [List.any_eq_true]
      refine ⟨ls1.length + lm.length, ?_, ?_⟩
      · rw [List.mem_range]
        omega
      · have e1 : core.take ls1.length = ls1 := by
          rw [heq, List.append_assoc, List.take_left]
        have e2 : core.drop ls1.length = lm ++ ls2 := by
          rw [heq, List.append_assoc, List.drop_left]
        have e3 : (lm ++ ls2).take (ls1.length + lm.length - ls1.length) = lm := by
          have h5 : ls1.length + lm.length - ls1.length = lm.length := by omega
          rw [h5, List.take_left]
        have e4 : core.drop (ls1.length + lm.length) = ls2 := by
          have h5 : ls1.length + lm.length = (ls1 ++ lm).length :=
            (List.length_append ls1 lm).symm
          rw [h5, heq, List.drop_left]
        rw [e1, e2, e3, e4]
        simp only [Bool.and_eq_true, decide_eq_true_eq, List.all_eq_true,
          Bool.not_eq_true']
        exact ⟨⟨⟨⟨⟨hl1, by omega⟩, by omega⟩, h1c⟩, hmc⟩, h2c⟩

theorem shMatch_iff_SHdecomp (l : List Char) : shMatch l = true ↔ SHdecomp l := by
  unfold shMatch SHdecomp
  rw [List.any_eq_true]
  constructor
  · rintro ⟨p, hpmem, hand⟩
    rw [Bool.and_eq_true] at hand
    obtain ⟨hlead, htail⟩ := hand
    rcases ciLeads_iff.mp hlead with ⟨lp, rest, hsplit, hup⟩
    have hlen : p.length = lp.length := by
      rw [← hup, jsUpper_length]
    have hdrop : l.drop p.length = rest := by
      rw [hsplit, hlen, List.drop_left]
    rw [hdrop] at htail
    unfold shTail at htail
    rcases List.any_eq_true.mp htail with ⟨t, htmem, hand2⟩
    rw [Bool.and_eq_true] at hand2
    obtain ⟨hend, hcore⟩ := hand2
    rcases ciEnds_iff.mp hend with ⟨r1, lt, hsplit2, hup2⟩
    have hlt : t.length = lt.length := by
      rw [← hup2, jsUpper_length]
    have hlen2 : rest.length - t.length = r1.length := by
      rw [hsplit2, List.length_append, hlt]
      omega
    have hr1 : rest.take (rest.length - t.length) = r1 := by
      rw [hlen2, hsplit2, List.take_left]
    rw [hr1] at hcore
    rcases shCore_eq_true_iff.mp hcore with ⟨ls1, lm, ls2, hceq, h1ne, h1c, hmc, h2ne, h2c⟩
    refine ⟨lp, ls1, lm, ls2, lt, ?_, ?_, h1ne, h1c, hmc, h2ne, h2c, ?_⟩
    · rw [hsplit, hsplit2, hceq]
      simp
    · rw [hup]
      exact hpmem
    · rw [hup2]
      exact htmem
  · rintro ⟨lp, ls1, lm, ls2, lt, heq, hpmem, h1ne, h1c, hmc, h2ne, h2c, htmem⟩
    refine ⟨jsUpper lp, hpmem, ?_⟩
    rw [Bool.and_eq_true]
    constructor
    · rw [heq]
      simp only [List.append_assoc]
      exact ciLeads_jsUpper_append lp _
    · have hdrop : l.drop (jsUpper lp).length = ls1 ++ lm ++ ls2 ++ lt := by
        rw [heq, jsUpper_length]
        simp only [List.append_assoc]
        exact List.drop_left lp _
      rw [hdrop]
      unfold shTail
      apply List.any_eq_true.mpr
      refine ⟨jsUpper lt, htmem, ?_⟩
      rw [Bool.and_eq_true]
      constructor
      · apply ciEnds_iff.mpr
        exact ⟨ls1 ++ lm ++ ls2, lt, by simp, rfl⟩
      · have hlen : (ls1 ++ lm ++ ls2 ++ lt).length - (jsUpper lt).length
            = (ls1 ++ lm ++ ls2).length := by
          rw [jsUpper_length]
          simp only [List.length_append]
          omega
        have htake : (ls1 ++ lm ++ ls2 ++ lt).take
            ((ls1 ++ lm ++ ls2 ++ lt).length - (jsUpper lt).length)
            = ls1 ++ lm ++ ls2 := by
          rw [hlen, show ls1 ++ lm ++ ls2 ++ lt = (ls1 ++ lm ++ ls2) ++ lt from by simp,
            List.take_left]
        rw [htake]
        apply shCore_eq_true_iff.mpr
        exact ⟨ls1, lm, ls2, rfl, h1ne, h1c, hmc, h2ne, h2c⟩

/-- C6 (amended): a line is classified `sceneHeading` iff it decomposes as
a case-insensitive start prefix (INT, EXT, INT/EXT, EXT/INT), then a
MANDATORY nonempty run of whitespace or `.` characters, a middle free of
line terminators (the `(.*?)` group: `.` cannot match a line terminator),
a MANDATORY nonempty run of whitespace, `.` or `-` characters, and a
final case-insensitive time-of-day token at the end of the line; the rule
has highest priority since no other condition is consulted.  (The
original claim made both separators optional, see the counterexample.) -/
theorem claim_C6_scene_heading_rule :
    ∀ l : List Char, detectElementType l = ElementKind.sceneHeading ↔ SHdecomp l := by
  intro l
  rw [detect_eq_sceneHeading_iff, shMatch_iff_SHdecomp]

/-- Counterexample to C6 as stated: `"INT.XDAY"` starts with `INT`
(followed by a `.`) and ends with the token `DAY`, so the claim's reading
makes it a SceneHeading; the regex additionally requires a `[\s.-]`
separator immediately before the token, so the code classifies the line
`technical`, not `sceneHeading`. -/
theorem claim_C6_counterexample :
    claimSHLit (("INT.XDAY").toList) = true ∧
    detectElementType (("INT.XDAY").toList) = ElementKind.technical ∧
    detectElementType (("INT.XDAY").toList) ≠ ElementKind.sceneHeading := by
  refine ⟨by decide, by decide, by decide⟩

/-! ### The parenthetical pipeline invariant (C10) -/

theorem getLastD_cons_ne {α : Type} {l : List α} (a d : α) (h : l ≠ []) :
    (a :: l).getLastD d = l.getLastD d := by
  cases l with
  | nil => exact absurd rfl h
  | cons b t => rfl

theorem getLastD_append_of_ne_nil {α : Type} {a b : List α} (h : b ≠ []) (d : α) :
    (a ++ b).getLastD d = b.getLastD d := by
  induction a with
  | nil => rfl
  | cons x xs ih =>
    rw [List.cons_append, getLastD_cons_ne x d (by simp [h]), ih]

theorem getLastD_mem {α : Type} {l : List α} (h : l ≠ []) (d : α) :
    l.getLastD d ∈ l := by
  induction l with
  | nil => exact absurd rfl h
  | cons b t ih =>
    cases t with
    | nil => simp [List.getLastD]
    | cons y ys =>
      rw [getLastD_cons_ne b d (by simp)]
      exact List.mem_cons_of_mem b (ih (by simp))

theorem joinSP_ne_nil {b : List Char} {ls : List (List Char)} (hb : b ≠ []) :
    joinSP (b :: ls) ≠ [] := by
  cases ls with
  | nil => exact hb
  | cons y ys =>
    show (b ++ [' ']) ++ joinWith [' '] (y :: ys) ≠ []
    simp

theorem joinSP_headD {ls : List (List Char)} {b : List Char} (hb : b ≠ []) :
    (joinSP (b :: ls)).headD 'x' = b.headD 'x' := by
  cases ls with
  | nil => rfl
  | cons y ys =>
    show ((b ++ [' ']) ++ joinWith [' '] (y :: ys)).headD 'x' = b.headD 'x'
    rw [headD_append_of_ne_nil (by simp [hb]), headD_append_of_ne_nil hb]

theorem joinSP_getLastD {ls : List (List Char)} (hne : ls ≠ [])
    (h : ∀ x ∈ ls, x ≠ []) : (joinSP ls).getLastD 'x' = (ls.getLastD []).getLastD 'x' := by
  induction ls with
  | nil => exact absurd rfl hne
  | cons b bs ih =>
    cases bs with
    | nil => rfl
    | cons y ys =>
      show ((b ++ [' ']) ++ joinWith [' '] (y :: ys)).getLastD 'x' = _
      have hy : joinWith [' '] (y :: ys) ≠ [] := joinSP_ne_nil (h y (by simp))
      rw [getLastD_append_of_ne_nil hy, getLastD_cons_ne b [] (by simp)]
      exact ih (by simp) (fun x hx => h x (List.mem_cons_of_mem b hx))

theorem parenMatch_head_last {l : List Char} (h : parenMatch l = true) :
    l.headD 'x' = '(' ∧ l.getLastD 'x' = ')' ∧ l ≠ [] := by
  cases l with
  | nil => simp [parenMatch] at h
  | cons a l' =>
    cases l' with
    | nil =>
      exfalso
      by_cases ha : a = '('
      · subst ha
        simp [parenMatch] at h
      · simp [parenMatch, ha] at h
    | cons b l'' =>
      by_cases ha : a = '('
      · subst ha
        simp only [parenMatch, Bool.and_eq_true, beq_iff_eq, decide_eq_true_eq] at h
        refine ⟨rfl, ?_, by simp⟩
        rw [getLastD_cons_ne '(' 'x' (by simp)]
        exact h.1.1
      · exfalso
        simp [parenMatch, ha] at h

theorem formatParenthetical_id_of_parens {t : List Char} (h1 : t.headD 'x' = '(')
    (h2 : t.getLastD 'x' = ')') : formatParenthetical t = t := by
  simp only [formatParenthetical]
  rw [if_pos (beq_iff_eq.mpr h1), if_pos (beq_iff_eq.mpr h2)]

theorem formatElementParenId_eq {k : ElementKind} (h : k ≠ ElementKind.parenthetical)
    (t : List Char) : formatElementParenId (some k) t = formatElement (some k) t := by
  cases k <;> first | rfl | exact absurd rfl h

/-- C10: every block that the pipeline classifies `parenthetical` is a
join of lines each matching `^\(.+\)$`, so the joined text already begins
with `(` and ends with `)` and the two insertion branches of
`_formatParenthetical` never execute during `formatScreenplay`: replacing
that renderer by the identity does not change the function.  The insertion
behavior is reachable only by calling the renderer directly, e.g. on
`"quietly"`. -/
theorem claim_C10_paren_insertion_unreachable :
    (∀ s : List Char, formatScreenplay s = formatScreenplayParenId s) ∧
    formatParenthetical (("quietly").toList) ≠ ("quietly").toList := by
  constructor
  · intro s
    unfold formatScreenplay formatScreenplayParenId
    congr 1
    apply formatLoopGen_congr
    · intro cur b bs hinv
      have hb := hinv b (List.mem_cons_self b bs)
      rw [← hb]
      cases hk : detectElementType b with
      | parenthetical =>
        have hall : ∀ x ∈ b :: bs, parenMatch x = true := by
          intro x hx
          have hx2 := hinv x hx
          rw [← hb, hk] at hx2
          have : detectElementType x = ElementKind.parenthetical :=
            Option.some_injective _ hx2.symm ▸ rfl
          exact ((detect_eq_parenthetical_iff x).mp
            (Option.some_injective _ hx2)).2.2
        have hne : ∀ x ∈ b :: bs, x ≠ [] :=
          fun x hx => (parenMatch_head_last (hall x hx)).2.2
        have hhead : (joinSP (b :: bs)).headD 'x' = '(' := by
          rw [joinSP_headD (hne b (by simp))]
          exact (parenMatch_head_last (hall b (by simp))).1
        have hlast : (joinSP (b :: bs)).getLastD 'x' = ')' := by
          rw [joinSP_getLastD (by simp) hne]
          have hm : (b :: bs).getLastD [] ∈ b :: bs := getLastD_mem (by simp) []
          exact (parenMatch_head_last (hall _ hm)).2.1
        show formatElement (some ElementKind.parenthetical) (joinSP (b :: bs)) =
          formatElementParenId (some ElementKind.parenthetical) (joinSP (b :: bs))
        show formatParenthetical (joinSP (b :: bs)) = joinSP (b :: bs)
        exact formatParenthetical_id_of_parens hhead hlast
      | sceneHeading => rfl
      | character => rfl
      | dialogue => rfl
      | transition => rfl
      | technical => rfl
      | action => rfl
    · simp
  · decide

/-! ### The greedy word-wrap (C3) -/

theorem wrapGo_nil (width : Nat) (res line : List Char) :
    wrapGo width [] res line = res ++ jsTrim line := rfl

theorem wrapGo_cons (width : Nat) (w line res : List Char) (ws : List (List Char)) :
    wrapGo width (w :: ws) res line =
      if width < (line ++ w).length then
        wrapGo width ws (res ++ jsTrim line ++ ['\n']) (w ++ [' '])
      else
        wrapGo width ws res (line ++ w ++ [' ']) := rfl

theorem wrapGo_result (width : Nat) (ws : List (List Char)) (res line : List Char) :
    wrapGo width ws res line = res ++ wrapGo width ws [] line := by
  induction ws generalizing res line with
  | nil => simp [wrapGo_nil]
  | cons w ws ih =>
    rw [wrapGo_cons, wrapGo_cons]
    by_cases h : width < (line ++ w).length
    · rw [if_pos h, if_pos h, ih (res ++ jsTrim line ++ ['\n']) (w ++ [' ']),
        ih ([] ++ jsTrim line ++ ['\n']) (w ++ [' '])]
      simp
    · rw [if_neg h, if_neg h, ih res (line ++ w ++ [' '])]

theorem headD_gen_append_of_ne_nil {α : Type} {a b : List α} {d : α} (h : a ≠ []) :
    (a ++ b).headD d = a.headD d := by
  cases a with
  | nil => exact absurd rfl h
  | cons x xs => rfl

theorem getLastD_eq_reverse_headD {α : Type} (l : List α) (d : α) :
    l.getLastD d = l.reverse.headD d := by
  induction l with
  | nil => rfl
  | cons a l ih =>
    cases l with
    | nil => rfl
    | cons b t =>
      rw [getLastD_cons_ne a d (by simp), List.reverse_cons,
        headD_gen_append_of_ne_nil (by simp), ih]

theorem trimmed_head_not_ws {w : List Char} (hne : w ≠ []) (ht : jsTrim w = w) :
    isWS (w.headD 'x') = false := by
  rw [← ht]
  exact jsTrim_head_not_ws (by rw [ht]; exact hne)

theorem trimmed_last_not_ws {w : List Char} (hne : w ≠ []) (ht : jsTrim w = w) :
    isWS (w.reverse.headD 'x') = false := by
  rw [← ht]
  exact jsTrim_last_not_ws (by rw [ht]; exact hne)

theorem nl_not_mem_joinSP {ls : List (List Char)} (h : ∀ w ∈ ls, '\n' ∉ w) :
    '\n' ∉ joinSP ls := by
  induction ls with
  | nil => simp [joinSP, joinWith]
  | cons b bs ih =>
    cases bs with
    | nil => exact h b (by simp)
    | cons y ys =>
      show '\n' ∉ (b ++ [' ']) ++ joinWith [' '] (y :: ys)
      intro hm
      rcases List.mem_append.mp hm with hm | hm
      · rcases List.mem_append.mp hm with hm | hm
        · exact h b (by simp) hm
        · simp at hm
      · exact ih (fun w hw => h w (List.mem_cons_of_mem b hw)) hm

theorem jsTrim_joinSP {ls : List (List Char)} (hne : ls ≠ [])
    (h : ∀ w ∈ ls, w ≠ [] ∧ jsTrim w = w) : jsTrim (joinSP ls) = joinSP ls := by
  cases ls with
  | nil => exact absurd rfl hne
  | cons b bs =>
    have hb := h b (by simp)
    apply jsTrim_of_clean
    · right
      rw [joinSP_headD hb.1]
      exact trimmed_head_not_ws hb.1 hb.2
    · right
      rw [← getLastD_eq_reverse_headD,
        joinSP_getLastD (by simp) (fun x hx => (h x hx).1)]
      have hm : (b :: bs).getLastD [] ∈ b :: bs := getLastD_mem (by simp) []
      rw [getLastD_eq_reverse_headD]
      exact trimmed_last_not_ws (h _ hm).1 (h _ hm).2

theorem joinSP_append_ne {ls ls' : List (List Char)} (h : ls ≠ []) (h' : ls' ≠ []) :
    joinSP (ls ++ ls') = joinSP ls ++ [' '] ++ joinSP ls' := by
  induction ls with
  | nil => exact absurd rfl h
  | cons b bs ih =>
    cases bs with
    | nil =>
      cases ls' with
      | nil => exact absurd rfl h'
      | cons y ys => rfl
    | cons z zs =>
      have h2 : (z :: zs) ++ ls' ≠ [] := by simp
      show joinWith [' '] (b :: ((z :: zs) ++ ls')) = _
      rcases hzz : (z :: zs) ++ ls' with _ | ⟨q, qs⟩
      · exact absurd hzz h2
      · rw [← hzz, show joinWith [' '] (b :: ((z :: zs) ++ ls')) =
          b ++ [' '] ++ joinWith [' '] ((z :: zs) ++ ls') by rw [hzz]; rfl]
        rw [show joinWith [' '] ((z :: zs) ++ ls') = joinSP ((z :: zs) ++ ls') from rfl,
          ih (by simp),
          show joinSP (b :: z :: zs) = b ++ [' '] ++ joinSP (z :: zs) from rfl]
        simp [List.append_assoc]

theorem splitNL_of_not_mem {l : List Char} (h : '\n' ∉ l) : splitNL l = [l] :=
  splitOnChar_of_not_mem h

theorem splitNL_cons_of {a b : List Char} (h : '\n' ∉ a) :
    splitNL (a ++ '\n' :: b) = a :: splitNL b := by
  unfold splitNL
  rw [splitOnChar_append, splitOnChar_of_not_mem h, List.singleton_append]

theorem joinSP_ne_nil_of {ls : List (List Char)} (hne : ls ≠ [])
    (h : ∀ w ∈ ls, w ≠ []) : joinSP ls ≠ [] := by
  cases ls with
  | nil => exact absurd rfl hne
  | cons b bs => exact joinSP_ne_nil (h b (by simp))

theorem wrapGo_good {width : Nat} (ws : List (List Char)) :
    ∀ ls : List (List Char), ls ≠ [] →
    (∀ w ∈ ls, goodWord width w ∧ '\n' ∉ w) →
    (∀ w ∈ ws, goodWord width w ∧ '\n' ∉ w) →
    (joinSP ls).length ≤ width →
    joinSP (splitNL (wrapGo width ws [] (joinSP ls ++ [' ']))) = joinSP (ls ++ ws) ∧
    (∀ ln ∈ splitNL (wrapGo width ws [] (joinSP ls ++ [' '])),
      ln ≠ [] ∧ ln.length ≤ width) := by
  induction ws with
  | nil =>
    intro ls hls hgls _ hlen
    have htr : ∀ w ∈ ls, w ≠ [] ∧ jsTrim w = w :=
      fun w hw => ⟨(hgls w hw).1.1, (hgls w hw).1.2.1⟩
    have hnl : '\n' ∉ joinSP ls := nl_not_mem_joinSP (fun w hw => (hgls w hw).2)
    rw [wrapGo_nil, List.nil_append, jsTrim_append_space, jsTrim_joinSP hls htr,
      splitNL_of_not_mem hnl]
    constructor
    · rw [List.append_nil]
      rfl
    · intro ln hln
      rw [List.mem_singleton] at hln
      subst hln
      exact ⟨joinSP_ne_nil_of hls (fun w hw => (htr w hw).1), hlen⟩
  | cons w ws ih =>
    intro ls hls hgls hgws hlen
    have htr : ∀ x ∈ ls, x ≠ [] ∧ jsTrim x = x :=
      fun x hx => ⟨(hgls x hx).1.1, (hgls x hx).1.2.1⟩
    have hnl : '\n' ∉ joinSP ls := nl_not_mem_joinSP (fun x hx => (hgls x hx).2)
    have hgw : goodWord width w ∧ '\n' ∉ w := hgws w (by simp)
    rw [wrapGo_cons]
    by_cases h : width < ((joinSP ls ++ [' ']) ++ w).length
    · rw [if_pos h,
        wrapGo_result width ws ([] ++ jsTrim (joinSP ls ++ [' ']) ++ ['\n']) (w ++ [' '])]
      simp only [List.nil_append]
      rw [jsTrim_append_space, jsTrim_joinSP hls htr]
      have harr : (joinSP ls ++ ['\n']) ++ wrapGo width ws [] (w ++ [' '])
          = joinSP ls ++ '\n' :: wrapGo width ws [] (w ++ [' ']) := by simp
      rw [harr, splitNL_cons_of hnl]
      have hrec := ih [w] (by simp)
        (by
          intro x hx
          rw [List.mem_singleton] at hx
          subst hx
          exact hgw)
        (fun x hx => hgws x (List.mem_cons_of_mem w hx))
        (by
          show (joinSP [w]).length ≤ width
          exact hgw.1.2.2)
      have hjw : joinSP [w] ++ [' '] = w ++ [' '] := rfl
      rw [hjw] at hrec
      constructor
      · rcases hrest : splitNL (wrapGo width ws [] (w ++ [' '])) with _ | ⟨y, ys⟩
        · exact absurd hrest (splitOnChar_ne_nil '\n' _)
        · rw [hrest] at hrec
          rw [List.singleton_append] at hrec
          rw [show joinSP (joinSP ls :: y :: ys) =
            joinSP ls ++ [' '] ++ joinSP (y :: ys) from rfl, hrec.1,
            joinSP_append_ne hls (by simp)]
      · intro ln hln
        rcases List.mem_cons.mp hln with he | he
        · subst he
          exact ⟨joinSP_ne_nil_of hls (fun x hx => (htr x hx).1), hlen⟩
        · exact hrec.2 ln he
    · rw [if_neg h]
      have he : (joinSP ls ++ [' ']) ++ w = joinSP (ls ++ [w]) := by
        rw [joinSP_append_ne hls (by simp)]
        rfl
      rw [he]
      have hlen2 : (joinSP (ls ++ [w])).length ≤ width := by
        rw [← he]
        omega
      have hrec := ih (ls ++ [w]) (by simp)
        (by
          intro x hx
          rcases List.mem_append.mp hx with h1 | h1
          · exact hgls x h1
          · rw [List.mem_singleton] at h1
            subst h1
            exact hgw)
        (fun x hx => hgws x (List.mem_cons_of_mem w hx))
        hlen2
      rw [show (ls ++ [w]) ++ ws = ls ++ w :: ws by simp] at hrec
      exact hrec

theorem wrapText_good {text : List Char} {width : Nat} (hnl : '\n' ∉ text)
    (hg : ∀ w ∈ splitSP text, goodWord width w) :
    joinSP (splitNL (wrapText text width)) = text ∧
    (∀ ln ∈ splitNL (wrapText text width), ln ≠ [] ∧ ln.length ≤ width) := by
  have htne : text ≠ [] := by
    intro he
    subst he
    have := (hg [] (by simp [splitSP, splitOnChar])).1
    exact this rfl
  unfold wrapText
  by_cases hlen : text.length ≤ width
  · rw [if_pos hlen, splitNL_of_not_mem hnl]
    constructor
    · rfl
    · intro ln hln
      rw [List.mem_singleton] at hln
      subst hln
      exact ⟨htne, hlen⟩
  · rw [if_neg hlen]
    rcases hsp : splitSP text with _ | ⟨w0, rest⟩
    · exact absurd hsp (splitOnChar_ne_nil ' ' text)
    · have hw0g : goodWord width w0 := hg w0 (by rw [hsp]; simp)
      have hnlw : ∀ w ∈ splitSP text, '\n' ∉ w := by
        intro w hw hm
        exact hnl (subset_of_mem_splitOnChar hw '\n' hm)
      rw [wrapGo_cons]
      have hcond : ¬ width < (([] : List Char) ++ w0).length := by
        rw [List.nil_append]
        have := hw0g.2.2
        omega
      rw [if_neg hcond]
      have hrec := wrapGo_good rest [w0] (by simp)
        (by
          intro x hx
          rw [List.mem_singleton] at hx
          rw [hx]
          exact ⟨hw0g, hnlw w0 (by rw [hsp]; simp)⟩)
        (by
          intro x hx
          refine ⟨hg x (by rw [hsp]; exact List.mem_cons_of_mem w0 hx), ?_⟩
          exact hnlw x (by rw [hsp]; exact List.mem_cons_of_mem w0 hx))
        (by
          show (joinSP [w0]).length ≤ width
          exact hw0g.2.2)
      have hjw : joinSP [w0] ++ [' '] = ([] ++ w0) ++ [' '] := rfl
      rw [hjw] at hrec
      refine ⟨?_, hrec.2⟩
      rw [hrec.1, show joinSP ([w0] ++ rest) = joinSP (splitSP text) by rw [hsp]; rfl]
      exact joinWith_splitOnChar ' ' text

theorem wrapGo_width_bound {width : Nat} (ws : List (List Char)) :
    ∀ line : List Char,
    (∀ w ∈ ws, ' ' ∉ w ∧ '\n' ∉ w) → '\n' ∉ line →
    ((jsTrim line).length ≤ width ∨ ' ' ∉ jsTrim line) →
    ∀ ln ∈ splitNL (wrapGo width ws [] line), ln.length ≤ width ∨ ' ' ∉ ln := by
  induction ws with
  | nil =>
    intro line _ hline hq
    rw [wrapGo_nil, List.nil_append,
      splitNL_of_not_mem (fun hm => hline (mem_jsTrim hm))]
    intro ln hln
    rw [List.mem_singleton] at hln
    subst hln
    exact hq
  | cons w ws ih =>
    intro line hws hline hq
    have hw := hws w (by simp)
    rw [wrapGo_cons]
    by_cases h : width < (line ++ w).length
    · rw [if_pos h,
        wrapGo_result width ws ([] ++ jsTrim line ++ ['\n']) (w ++ [' '])]
      simp only [List.nil_append]
      have hnt : '\n' ∉ jsTrim line := fun hm => hline (mem_jsTrim hm)
      have harr : (jsTrim line ++ ['\n']) ++ wrapGo width ws [] (w ++ [' '])
          = jsTrim line ++ '\n' :: wrapGo width ws [] (w ++ [' ']) := by simp
      rw [harr, splitNL_cons_of hnt]
      intro ln hln
      rcases List.mem_cons.mp hln with he | he
      · subst he
        exact hq
      · refine ih (w ++ [' ']) (fun x hx => hws x (List.mem_cons_of_mem w hx)) ?_ ?_ ln he
        · intro hm
          rcases List.mem_append.mp hm with hm | hm
          · exact hw.2 hm
          · simp at hm
        · right
          rw [jsTrim_append_space]
          intro hm
          exact hw.1 (mem_jsTrim hm)
    · rw [if_neg h]
      refine ih (line ++ w ++ [' ']) (fun x hx => hws x (List.mem_cons_of_mem w hx)) ?_ ?_
      · intro hm
        rcases List.mem_append.mp hm with hm | hm
        · rcases List.mem_append.mp hm with hm | hm
          · exact hline hm
          · exact hw.2 hm
        · simp at hm
      · left
        rw [jsTrim_append_space]
        calc (jsTrim (line ++ w)).length ≤ (line ++ w).length := jsTrim_length_le _
          _ ≤ width := by omega

theorem wrapText_width_bound (text : List Char) (width : Nat) (hnl : '\n' ∉ text) :
    ∀ ln ∈ splitNL (wrapText text width), ln.length ≤ width ∨ ' ' ∉ ln := by
  unfold wrapText
  by_cases hlen : text.length ≤ width
  · rw [if_pos hlen, splitNL_of_not_mem hnl]
    intro ln hln
    rw [List.mem_singleton] at hln
    subst hln
    exact Or.inl hlen
  · rw [if_neg hlen]
    apply wrapGo_width_bound
    · intro w hw
      exact ⟨not_mem_of_mem_splitOnChar hw,
        fun hm => hnl (subset_of_mem_splitOnChar hw '\n' hm)⟩
    · simp
    · left
      show (jsTrim []).length ≤ width
      simp [jsTrim, trimL, trimR]

/-- C3 (amended): for the greedy word-wrap, (a) every output line either
fits the column width or contains no space (it is a single overlong word);
(b) when the text's space-separated words are all nonempty, trimmed and no
longer than the width — in particular when the text has no consecutive
spaces and no overlong word — rejoining the output lines with single
spaces reproduces the text; (c) text no longer than the width is returned
unchanged.  (Unconditional rejoining fails, see the counterexample.) -/
theorem claim_C3_wrap_correctness (text : List Char) (width : Nat)
    (hnl : '\n' ∉ text) :
    (∀ ln ∈ splitNL (wrapText text width), ln.length ≤ width ∨ ' ' ∉ ln) ∧
    ((∀ w ∈ splitSP text, goodWord width w) →
      joinSP (splitNL (wrapText text width)) = text) ∧
    (text.length ≤ width → wrapText text width = text) := by
  refine ⟨wrapText_width_bound text width hnl, ?_, ?_⟩
  · intro hg
    exact (wrapText_good hnl hg).1
  · intro h
    unfold wrapText
    rw [if_pos h]

/-- Witness for C3 at a concrete wrapped input. -/
theorem claim_C3_wrap_correctness_witness :
    ¬ '\n' ∈ ("aaaa bbbb cccc").toList ∧
    joinSP (splitNL (wrapText (("aaaa bbbb cccc").toList) 9)) =
      ("aaaa bbbb cccc").toList :=
  ⟨by decide, (claim_C3_wrap_correctness (("aaaa bbbb cccc").toList) 9
    (by decide)).2.1 (by decide)⟩

/-- Counterexample to C3 as stated: a 62-character text containing a
double space wraps at width 60 into two lines, and rejoining them with
single spaces loses one of the two spaces. -/
theorem claim_C3_counterexample :
    joinSP (splitNL (wrapText
      (List.replicate 30 'a' ++ ' ' :: ' ' :: List.replicate 30 'b') 60)) ≠
    List.replicate 30 'a' ++ ' ' :: ' ' :: List.replicate 30 'b' := by
  decide

/-! ### Blank-line pattern machinery (C2) -/

theorem dedupF_ff (bs : List Bool) :
    dedupF (false :: false :: bs) = dedupF (false :: bs) := rfl

theorem dedupF_true_cons (bs : List Bool) :
    dedupF (true :: bs) = true :: dedupF bs := by
  cases bs with
  | nil => rfl
  | cons b bs => rfl

theorem dedupF_ft (bs : List Bool) :
    dedupF (false :: true :: bs) = false :: dedupF (true :: bs) := rfl

theorem dedupF_false_absorb (xs : List Bool) (bs : List Bool)
    (h : ∀ b ∈ xs, b = false) :
    dedupF (false :: (xs ++ bs)) = dedupF (false :: bs) := by
  induction xs with
  | nil => rfl
  | cons x xs ih =>
    have hx : x = false := h x (by simp)
    subst hx
    rw [List.cons_append, dedupF_ff]
    exact ih (fun b hb => h b (List.mem_cons_of_mem _ hb))

theorem splitSP_joinSP (ls : List (List Char)) (h : ls ≠ []) :
    splitSP (joinSP ls) = (ls.map splitSP).flatten := by
  induction ls with
  | nil => exact absurd rfl h
  | cons b bs ih =>
    cases bs with
    | nil =>
      show splitSP (joinSP [b]) = splitSP b ++ []
      rw [show joinSP [b] = b from rfl, List.append_nil]
    | cons y ys =>
      have he : joinSP (b :: y :: ys) = b ++ ' ' :: joinSP (y :: ys) := by
        rw [show joinSP (b :: y :: ys) = b ++ [' '] ++ joinSP (y :: ys) from rfl]
        simp
      rw [he, show splitSP (b ++ ' ' :: joinSP (y :: ys)) =
          splitSP b ++ splitSP (joinSP (y :: ys)) from splitOnChar_append ' ' b _,
        ih (by simp)]
      simp

theorem splitNL_joinNL (chunks : List (List Char)) (h : chunks ≠ []) :
    splitNL (joinNL chunks) = (chunks.map splitNL).flatten := by
  induction chunks with
  | nil => exact absurd rfl h
  | cons c cs ih =>
    cases cs with
    | nil =>
      show splitNL (joinNL [c]) = splitNL c ++ []
      rw [show joinNL [c] = c from rfl, List.append_nil]
    | cons d ds =>
      have he : joinNL (c :: d :: ds) = c ++ '\n' :: joinNL (d :: ds) := by
        rw [show joinNL (c :: d :: ds) = c ++ ['\n'] ++ joinNL (d :: ds) from rfl]
        simp
      rw [he, show splitNL (c ++ '\n' :: joinNL (d :: ds)) =
          splitNL c ++ splitNL (joinNL (d :: ds)) from splitOnChar_append '\n' c _,
        ih (by simp)]
      simp

theorem formatLoopGen_eq_nil (fe : Option ElementKind → List Char → List Char) :
    ∀ (ls : List (List Char)) (cur : Option ElementKind) (buf : List (List Char)),
      formatLoopGen fe ls cur buf = [] → ls = [] ∧ buf = [] := by
  intro ls
  induction ls with
  | nil =>
    intro cur buf h
    cases buf with
    | nil => exact ⟨rfl, rfl⟩
    | cons b bs => exact absurd h (by rw [formatLoopGen_nil_cons]; simp)
  | cons l ls ih =>
    intro cur buf h
    rw [formatLoopGen_cons] at h
    by_cases ht : jsTrim l = []
    · rw [if_pos ht] at h
      cases buf with
      | nil => simp at h
      | cons b bs => simp at h
    · rw [if_neg ht] at h
      by_cases hk : some (detectElementType (jsTrim l)) = cur
      · rw [if_pos hk] at h
        have := (ih cur (buf ++ [jsTrim l]) h).2
        simp at this
      · rw [if_neg hk] at h
        cases buf with
        | nil =>
          have := (ih _ [jsTrim l] h).2
          simp at this
        | cons b bs => simp at h

theorem formatParenthetical_ne_nil (t : List Char) : formatParenthetical t ≠ [] := by
  simp only [formatParenthetical]
  by_cases h1 : (t.headD 'x' == '(') = true
  · rw [if_pos h1]
    have ht : t ≠ [] := by
      intro he
      subst he
      simp at h1
    split
    · exact ht
    · simp
  · rw [if_neg h1]
    split <;> simp

theorem nl_not_mem_formatParenthetical {t : List Char} (h : '\n' ∉ t) :
    '\n' ∉ formatParenthetical t := by
  simp only [formatParenthetical]
  by_cases h1 : (t.headD 'x' == '(') = true
  · rw [if_pos h1]
    split
    · exact h
    · intro hm
      rcases List.mem_append.mp hm with hm | hm
      · exact h hm
      · simp at hm
  · rw [if_neg h1]
    have h2 : '\n' ∉ '(' :: t := by
      intro hm
      rcases List.mem_cons.mp hm with he | he
      · exact absurd he (by decide)
      · exact h he
    split
    · exact h2
    · intro hm
      rcases List.mem_append.mp hm with hm | hm
      · exact h2 hm
      · simp at hm

theorem render_block_lines {b : List Char} {bs : List (List Char)}
    (hgood : ∀ x ∈ b :: bs, jsTrim x = x ∧ x ≠ [] ∧ '\n' ∉ x ∧
      ∀ w ∈ splitSP x, goodWord 60 w) :
    ∀ ln ∈ splitNL (formatElement (some (detectElementType b)) (joinSP (b :: bs))),
      ln ≠ [] := by
  have hTne : joinSP (b :: bs) ≠ [] := joinSP_ne_nil (hgood b (by simp)).2.1
  have hTnl : '\n' ∉ joinSP (b :: bs) :=
    nl_not_mem_joinSP (fun x hx => (hgood x hx).2.2.1)
  have hupper : ∀ ln ∈ splitNL (jsUpper (joinSP (b :: bs))), ln ≠ [] := by
    rw [splitNL_of_not_mem (nl_not_mem_jsUpper hTnl)]
    intro ln hln
    rw [List.mem_singleton] at hln
    subst hln
    cases hT : joinSP (b :: bs) with
    | nil => exact absurd hT hTne
    | cons c cs => simp [jsUpper]
  cases hk : detectElementType b with
  | sceneHeading => exact hupper
  | character => exact hupper
  | transition => exact hupper
  | technical => exact hupper
  | dialogue => exact absurd hk (detect_ne_dialogue b)
  | parenthetical =>
    show ∀ ln ∈ splitNL (formatParenthetical (joinSP (b :: bs))), ln ≠ []
    rw [splitNL_of_not_mem (nl_not_mem_formatParenthetical hTnl)]
    intro ln hln
    rw [List.mem_singleton] at hln
    subst hln
    exact formatParenthetical_ne_nil _
  | action =>
    show ∀ ln ∈ splitNL (wrapText (joinSP (b :: bs)) 60), ln ≠ []
    have hw : ∀ w ∈ splitSP (joinSP (b :: bs)), goodWord 60 w := by
      intro w hwm
      rw [splitSP_joinSP (b :: bs) (by simp)] at hwm
      rcases List.mem_flatten.mp hwm with ⟨piece, hp, hwp⟩
      rcases List.mem_map.mp hp with ⟨x, hx, he⟩
      exact (hgood x hx).2.2.2 w (by rw [← he] at hwp; exact hwp)
    intro ln hln
    exact ((wrapText_good hTnl hw).2 ln hln).1

theorem formatLoopGen_cons_blank_nil (fe : Option ElementKind → List Char → List Char)
    (l : List Char) (ls : List (List Char)) (cur : Option ElementKind)
    (ht : jsTrim l = []) :
    formatLoopGen fe (l :: ls) cur [] = [[]] ++ formatLoopGen fe ls cur [] := by
  rw [formatLoopGen_cons, if_pos ht]

theorem formatLoopGen_cons_blank_cons (fe : Option ElementKind → List Char → List Char)
    (l : List Char) (ls : List (List Char)) (cur : Option ElementKind)
    (b : List Char) (bs : List (List Char)) (ht : jsTrim l = []) :
    formatLoopGen fe (l :: ls) cur (b :: bs) =
      [fe cur (joinSP (b :: bs))] ++ [[]] ++ formatLoopGen fe ls none [] := by
  rw [formatLoopGen_cons, if_pos ht]

theorem formatLoopGen_cons_same (fe : Option ElementKind → List Char → List Char)
    (l : List Char) (ls : List (List Char)) (cur : Option ElementKind)
    (buf : List (List Char)) (ht : ¬ jsTrim l = [])
    (hk : some (detectElementType (jsTrim l)) = cur) :
    formatLoopGen fe (l :: ls) cur buf = formatLoopGen fe ls cur (buf ++ [jsTrim l]) := by
  rw [formatLoopGen_cons, if_neg ht, if_pos hk]

theorem formatLoopGen_cons_diff_nil (fe : Option ElementKind → List Char → List Char)
    (l : List Char) (ls : List (List Char)) (cur : Option ElementKind)
    (ht : ¬ jsTrim l = []) (hk : ¬ some (detectElementType (jsTrim l)) = cur) :
    formatLoopGen fe (l :: ls) cur [] =
      formatLoopGen fe ls (some (detectElementType (jsTrim l))) [jsTrim l] := by
  rw [formatLoopGen_cons, if_neg ht, if_neg hk]

theorem formatLoopGen_cons_diff_cons (fe : Option ElementKind → List Char → List Char)
    (l : List Char) (ls : List (List Char)) (cur : Option ElementKind)
    (b : List Char) (bs : List (List Char)) (ht : ¬ jsTrim l = [])
    (hk : ¬ some (detectElementType (jsTrim l)) = cur) :
    formatLoopGen fe (l :: ls) cur (b :: bs) =
      [fe cur (joinSP (b :: bs))] ++
        formatLoopGen fe ls (some (detectElementType (jsTrim l))) [jsTrim l] := by
  rw [formatLoopGen_cons, if_neg ht, if_neg hk]

theorem splitNL_nil : splitNL [] = [[]] := rfl


theorem blankPat_loop (ls : List (List Char))
    (hL : ∀ l ∈ ls, '\n' ∉ l ∧
      (jsTrim l = [] ∨ ∀ w ∈ splitSP (jsTrim l), goodWord 60 w)) :
    (dedupF ((((formatLoopGen formatElement ls none []).map splitNL).flatten).map
        (fun l => l.isEmpty))
      = dedupF (ls.map (fun l => (jsTrim l).isEmpty))) ∧
    (∀ (cur : Option ElementKind) (b : List Char) (bs : List (List Char)),
      (∀ x ∈ b :: bs, some (detectElementType x) = cur) →
      (∀ x ∈ b :: bs, jsTrim x = x ∧ x ≠ [] ∧ '\n' ∉ x ∧
        ∀ w ∈ splitSP x, goodWord 60 w) →
      (dedupF (false :: (((formatLoopGen formatElement ls cur (b :: bs)).map
          splitNL).flatten).map (fun l => l.isEmpty))
        = dedupF (false :: ls.map (fun l => (jsTrim l).isEmpty))) ∧
      ∃ y ys, ((formatLoopGen formatElement ls cur (b :: bs)).map splitNL).flatten
          = y :: ys ∧ y ≠ []) := by
  induction ls with
  | nil =>
    refine ⟨rfl, ?_⟩
    intro cur b bs hinv hgood
    rw [formatLoopGen_nil_cons]
    have hels : ∀ ln ∈ splitNL (formatElement cur (joinSP (b :: bs))), ln ≠ [] := by
      rw [← hinv b (by simp)]
      exact render_block_lines hgood
    have hallf : ∀ v ∈ (splitNL (formatElement cur (joinSP (b :: bs)))).map
        (fun l : List Char => l.isEmpty), v = false := by
      intro v hv
      rcases List.mem_map.mp hv with ⟨ln, hln, he⟩
      rw [← he, List.isEmpty_eq_false]
      exact hels ln hln
    have hexp : ((([formatElement cur (joinSP (b :: bs))]).map splitNL).flatten).map
        (fun l : List Char => l.isEmpty)
        = (splitNL (formatElement cur (joinSP (b :: bs)))).map
            (fun l : List Char => l.isEmpty) ++ [] := by
      simp
    constructor
    · rw [hexp, dedupF_false_absorb _ _ hallf]
      rfl
    · rcases hsp : splitNL (formatElement cur (joinSP (b :: bs))) with _ | ⟨y, ys⟩
      · exact absurd hsp (splitOnChar_ne_nil _ _)
      · refine ⟨y, ys ++ [], ?_, hels y (by rw [hsp]; simp)⟩
        have : (([formatElement cur (joinSP (b :: bs))]).map splitNL).flatten
            = splitNL (formatElement cur (joinSP (b :: bs))) ++ [] := by simp
        rw [this, hsp, List.cons_append]
  | cons l ls ih =>
    have hl0 := hL l (by simp)
    have hLrest : ∀ x ∈ ls, '\n' ∉ x ∧
        (jsTrim x = [] ∨ ∀ w ∈ splitSP (jsTrim x), goodWord 60 w) :=
      fun x hx => hL x (List.mem_cons_of_mem l hx)
    obtain ⟨ihA, ihB⟩ := ih hLrest
    have htfacts : ¬ jsTrim l = [] →
        (jsTrim (jsTrim l) = jsTrim l ∧ jsTrim l ≠ [] ∧ '\n' ∉ jsTrim l ∧
          ∀ w ∈ splitSP (jsTrim l), goodWord 60 w) := by
      intro ht
      refine ⟨jsTrim_idem l, ht, fun hm => hl0.1 (mem_jsTrim hm), ?_⟩
      exact hl0.2.resolve_left ht
    constructor
    · by_cases ht : jsTrim l = []
      · rw [formatLoopGen_cons_blank_nil formatElement l ls none ht]
        have hexp : ((([[]] ++ formatLoopGen formatElement ls none []).map
            splitNL).flatten).map (fun l : List Char => l.isEmpty)
            = true :: (((formatLoopGen formatElement ls none []).map
              splitNL).flatten).map (fun l : List Char => l.isEmpty) := by
          simp [splitNL_nil]
        rw [hexp, dedupF_true_cons, ihA, List.map_cons, ht,
          show (([] : List Char)).isEmpty = true from rfl, dedupF_true_cons]
      · rw [formatLoopGen_cons_diff_nil formatElement l ls none ht (by simp)]
        obtain ⟨hB1, y, ys, hflat, hyne⟩ :=
          ihB (some (detectElementType (jsTrim l))) (jsTrim l) []
            (by
              intro x hx
              rw [List.mem_singleton] at hx
              rw [hx])
            (by
              intro x hx
              rw [List.mem_singleton] at hx
              rw [hx]
              exact htfacts ht)
        rw [List.map_cons, show (jsTrim l).isEmpty = false from
          List.isEmpty_eq_false.mpr ht, ← hB1, hflat, List.map_cons,
          List.isEmpty_eq_false.mpr hyne, dedupF_ff]
    · intro cur b bs hinv hgood
      have hels : ∀ ln ∈ splitNL (formatElement cur (joinSP (b :: bs))), ln ≠ [] := by
        rw [← hinv b (by simp)]
        exact render_block_lines hgood
      have hallf : ∀ v ∈ (splitNL (formatElement cur (joinSP (b :: bs)))).map
          (fun l : List Char => l.isEmpty), v = false := by
        intro v hv
        rcases List.mem_map.mp hv with ⟨ln, hln, he⟩
        rw [← he, List.isEmpty_eq_false]
        exact hels ln hln
      by_cases ht : jsTrim l = []
      · rw [formatLoopGen_cons_blank_cons formatElement l ls cur b bs ht]
        have hexp : ((([formatElement cur (joinSP (b :: bs))] ++ [[]] ++
            formatLoopGen formatElement ls none []).map splitNL).flatten).map
            (fun l : List Char => l.isEmpty)
            = (splitNL (formatElement cur (joinSP (b :: bs)))).map
                (fun l : List Char => l.isEmpty) ++
              (true :: (((formatLoopGen formatElement ls none []).map
                splitNL).flatten).map (fun l : List Char => l.isEmpty)) := by
          simp [splitNL_nil]
        constructor
        · rw [hexp, dedupF_false_absorb _ _ hallf, dedupF_ft, dedupF_true_cons, ihA,
            List.map_cons, ht, show (([] : List Char)).isEmpty = true from rfl,
            dedupF_ft, dedupF_true_cons]
        · rcases hsp : splitNL (formatElement cur (joinSP (b :: bs))) with _ | ⟨y, ys⟩
          · exact absurd hsp (splitOnChar_ne_nil _ _)
          · have hfl : (([formatElement cur (joinSP (b :: bs))] ++ [[]] ++
                formatLoopGen formatElement ls none []).map splitNL).flatten
                = splitNL (formatElement cur (joinSP (b :: bs))) ++
                  ([] :: ((formatLoopGen formatElement ls none []).map
                    splitNL).flatten) := by
              simp [splitNL_nil]
            refine ⟨y, ys ++ ([] :: ((formatLoopGen formatElement ls none []).map
              splitNL).flatten), ?_, hels y (by rw [hsp]; simp)⟩
            rw [hfl, hsp, List.cons_append]
      · by_cases hk : some (detectElementType (jsTrim l)) = cur
        · rw [formatLoopGen_cons_same formatElement l ls cur (b :: bs) ht hk,
            show (b :: bs) ++ [jsTrim l] = b :: (bs ++ [jsTrim l]) from rfl]
          obtain ⟨hB1, y, ys, hflat, hyne⟩ := ihB cur b (bs ++ [jsTrim l])
            (by
              intro x hx
              rcases List.mem_cons.mp hx with he | he
              · rw [he]
                exact hinv b (by simp)
              · rcases List.mem_append.mp he with he2 | he2
                · exact hinv x (List.mem_cons_of_mem b he2)
                · rw [List.mem_singleton] at he2
                  rw [he2]
                  exact hk)
            (by
              intro x hx
              rcases List.mem_cons.mp hx with he | he
              · rw [he]
                exact hgood b (by simp)
              · rcases List.mem_append.mp he with he2 | he2
                · exact hgood x (List.mem_cons_of_mem b he2)
                · rw [List.mem_singleton] at he2
                  rw [he2]
                  exact htfacts ht)
          refine ⟨?_, y, ys, hflat, hyne⟩
          rw [hB1, List.map_cons, show (jsTrim l).isEmpty = false from
            List.isEmpty_eq_false.mpr ht, dedupF_ff]
        · rw [formatLoopGen_cons_diff_cons formatElement l ls cur b bs ht hk]
          obtain ⟨hB1, y, ys, hflat, hyne⟩ :=
            ihB (some (detectElementType (jsTrim l))) (jsTrim l) []
              (by
                intro x hx
                rw [List.mem_singleton] at hx
                rw [hx])
              (by
                intro x hx
                rw [List.mem_singleton] at hx
                rw [hx]
                exact htfacts ht)
          have hexp : ((([formatElement cur (joinSP (b :: bs))] ++
              formatLoopGen formatElement ls
                (some (detectElementType (jsTrim l))) [jsTrim l]).map
              splitNL).flatten).map (fun l : List Char => l.isEmpty)
              = (splitNL (formatElement cur (joinSP (b :: bs)))).map
                  (fun l : List Char => l.isEmpty) ++
                (((formatLoopGen formatElement ls
                  (some (detectElementType (jsTrim l))) [jsTrim l]).map
                  splitNL).flatten).map (fun l : List Char => l.isEmpty) := by
            simp
          constructor
          · rw [hexp, dedupF_false_absorb _ _ hallf, hB1, List.map_cons,
              show (jsTrim l).isEmpty = false from List.isEmpty_eq_false.mpr ht,
              dedupF_ff]
          · rcases hsp : splitNL (formatElement cur (joinSP (b :: bs))) with _ | ⟨y0, ys0⟩
            · exact absurd hsp (splitOnChar_ne_nil _ _)
            · have hfl : (([formatElement cur (joinSP (b :: bs))] ++
                  formatLoopGen formatElement ls
                    (some (detectElementType (jsTrim l))) [jsTrim l]).map
                  splitNL).flatten
                  = splitNL (formatElement cur (joinSP (b :: bs))) ++
                    ((formatLoopGen formatElement ls
                      (some (detectElementType (jsTrim l))) [jsTrim l]).map
                      splitNL).flatten := by
                simp
              refine ⟨y0, ys0 ++ ((formatLoopGen formatElement ls
                (some (detectElementType (jsTrim l))) [jsTrim l]).map
                splitNL).flatten, ?_, hels y0 (by rw [hsp]; simp)⟩
              rw [hfl, hsp, List.cons_append]

/-- C2 (amended): when every non-blank input line has well-formed words
(nonempty, trimmed, and at most 60 characters — i.e. no consecutive spaces
and no word beyond the action wrap width), the number and relative
position of blank-line separators in the output of `formatScreenplay`
equals the number and relative position of blank (empty-after-trim) lines
of the input, expressed as equality of the collapsed blank/non-blank run
patterns.  (Unconditionally the property fails: an overlong word makes the
wrapper emit an extra blank line, see the counterexample.) -/
theorem claim_C2_blank_preservation (s : List Char)
    (h : ∀ l ∈ splitNL s, jsTrim l = [] ∨ ∀ w ∈ splitSP (jsTrim l), goodWord 60 w) :
    dedupF ((splitNL (formatScreenplay s)).map (fun l => l.isEmpty))
      = dedupF ((splitNL s).map (fun l => (jsTrim l).isEmpty)) := by
  have hL : ∀ l ∈ splitNL s, '\n' ∉ l ∧
      (jsTrim l = [] ∨ ∀ w ∈ splitSP (jsTrim l), goodWord 60 w) :=
    fun l hl => ⟨not_mem_of_mem_splitOnChar hl, h l hl⟩
  have hout : formatLoopGen formatElement (splitNL s) none [] ≠ [] := by
    intro he
    have h2 := (formatLoopGen_eq_nil formatElement (splitNL s) none [] he).1
    exact splitOnChar_ne_nil '\n' s h2
  unfold formatScreenplay
  rw [splitNL_joinNL _ hout]
  exact (blankPat_loop (splitNL s) hL).1

/-- Witness for C2 at the concrete input `"hello\n\nworld"`. -/
theorem claim_C2_blank_preservation_witness :
    dedupF ((splitNL (formatScreenplay (("hello\n\nworld").toList))).map
        (fun l => l.isEmpty))
      = dedupF ((splitNL (("hello\n\nworld").toList)).map
        (fun l => (jsTrim l).isEmpty)) :=
  claim_C2_blank_preservation (("hello\n\nworld").toList) (by decide)

/-- Counterexample to C2 as stated: the input is a single non-blank line
(a 61-character word followed by `" b"`), yet the wrapper emits a leading
empty line, so the output has a blank separator where the input has none. -/
theorem claim_C2_counterexample :
    dedupF ((splitNL (formatScreenplay (List.replicate 61 'a' ++ [' ', 'b']))).map
        (fun l => l.isEmpty))
      ≠ dedupF ((splitNL (List.replicate 61 'a' ++ [' ', 'b'])).map
        (fun l => (jsTrim l).isEmpty)) := by
  decide

/-! ### Idempotence analysis (C1) -/

theorem formatScreenplay_single {s : List Char} (h : '\n' ∉ s) :
    formatScreenplay s = if jsTrim s = [] then []
      else formatElement (some (detectElementType (jsTrim s))) (jsTrim s) := by
  unfold formatScreenplay
  rw [show splitNL s = [s] from splitNL_of_not_mem h]
  by_cases ht : jsTrim s = []
  · rw [if_pos ht, formatLoopGen_cons_blank_nil formatElement s [] none ht,
      formatLoopGen_nil_nil]
    rfl
  · rw [if_neg ht, formatLoopGen_cons_diff_nil formatElement s [] none ht (by simp),
      formatLoopGen_nil_cons]
    rfl

theorem fs_fixed {T : List Char} (hnl : '\n' ∉ T) (htr : jsTrim T = T)
    (hrender : formatElement (some (detectElementType T)) T = T) :
    formatScreenplay T = T := by
  by_cases hT : T = []
  · subst hT
    rfl
  · rw [formatScreenplay_single hnl, htr, if_neg hT, hrender]

theorem ciLeads_head {k c : Char} {ks cs : List Char}
    (h : ciLeads (k :: ks) (c :: cs) = true) : upChar c = k := by
  rw [ciLeads_cons_cons, Bool.and_eq_true, beq_iff_eq] at h
  exact h.1

theorem parenMatch_jsUpper_of_trans {l : List Char} (h : transMatch l = true) :
    parenMatch (jsUpper l) = false := by
  cases hpm : parenMatch (jsUpper l)
  · rfl
  · exfalso
    have hh := (parenMatch_head_last hpm).1
    rcases List.any_eq_true.mp h with ⟨kw, hkw, hand⟩
    rw [Bool.and_eq_true] at hand
    obtain ⟨hlead, _⟩ := hand
    cases l with
    | nil =>
      fin_cases hkw <;> exact absurd hlead (by decide)
    | cons c cs =>
      have hup : upChar c = '(' := by simpa [jsUpper] using hh
      fin_cases hkw <;>
        (have h2 := ciLeads_head hlead;
          rw [hup] at h2;
          exact absurd h2 (by decide))

/-- C1 (amended): `formatScreenplay` is not idempotent in general (see the
counterexample), but it is idempotent on every single-line input of length
at most 35: uppercasing is stable for scene headings (case-insensitive
match), character/technical/parenthetical/action lines render to
themselves, and an uppercased transition line re-classifies as character
or transition, both of which render by uppercasing again. -/
theorem claim_C1_idempotent_short_single_line (s : List Char)
    (h1 : '\n' ∉ s) (h2 : s.length ≤ 35) :
    formatScreenplay (formatScreenplay s) = formatScreenplay s := by
  rw [formatScreenplay_single h1]
  by_cases ht : jsTrim s = []
  · rw [if_pos ht]
    rfl
  · rw [if_neg ht]
    have hTt : jsTrim (jsTrim s) = jsTrim s := jsTrim_idem s
    have hTnl : '\n' ∉ jsTrim s := fun hm => h1 (mem_jsTrim hm)
    have hTlen : (jsTrim s).length ≤ 35 := le_trans (jsTrim_length_le s) h2
    cases hk : detectElementType (jsTrim s) with
    | dialogue => exact absurd hk (detect_ne_dialogue _)
    | sceneHeading =>
      show formatScreenplay (jsUpper (jsTrim s)) = jsUpper (jsTrim s)
      apply fs_fixed (nl_not_mem_jsUpper hTnl)
      · rw [jsTrim_jsUpper, hTt]
      · have hsh : shMatch (jsUpper (jsTrim s)) = true := by
          rw [shMatch_upper]
          exact (detect_eq_sceneHeading_iff _).mp hk
        rw [(detect_eq_sceneHeading_iff _).mpr hsh]
        show jsUpper (jsUpper (jsTrim s)) = jsUpper (jsTrim s)
        exact jsUpper_idem _
    | character =>
      obtain ⟨hshf, hcm, hlen⟩ := (detect_eq_character_iff _).mp hk
      show formatScreenplay (jsUpper (jsTrim s)) = jsUpper (jsTrim s)
      rw [jsUpper_of_charMatch hcm]
      apply fs_fixed hTnl hTt
      rw [hk]
      show jsUpper (jsTrim s) = jsTrim s
      exact jsUpper_of_charMatch hcm
    | parenthetical =>
      obtain ⟨hshf, hnc, hpm⟩ := (detect_eq_parenthetical_iff _).mp hk
      obtain ⟨hph, hpl, hpne⟩ := parenMatch_head_last hpm
      show formatScreenplay (formatParenthetical (jsTrim s)) =
        formatParenthetical (jsTrim s)
      rw [formatParenthetical_id_of_parens hph hpl]
      apply fs_fixed hTnl hTt
      rw [hk]
      show formatParenthetical (jsTrim s) = jsTrim s
      exact formatParenthetical_id_of_parens hph hpl
    | transition =>
      obtain ⟨hshf, hnc, hpf, htm⟩ := (detect_eq_transition_iff _).mp hk
      show formatScreenplay (jsUpper (jsTrim s)) = jsUpper (jsTrim s)
      apply fs_fixed (nl_not_mem_jsUpper hTnl)
      · rw [jsTrim_jsUpper, hTt]
      · by_cases hc2 : charMatch (jsUpper (jsTrim s)) = true ∧
            (jsUpper (jsTrim s)).length < 50
        · have hdet : detectElementType (jsUpper (jsTrim s)) = ElementKind.character :=
            (detect_eq_character_iff _).mpr
              ⟨by rw [shMatch_upper]; exact hshf, hc2.1, hc2.2⟩
          rw [hdet]
          show jsUpper (jsUpper (jsTrim s)) = jsUpper (jsTrim s)
          exact jsUpper_idem _
        · have hdet : detectElementType (jsUpper (jsTrim s)) = ElementKind.transition :=
            (detect_eq_transition_iff _).mpr
              ⟨by rw [shMatch_upper]; exact hshf, hc2,
                parenMatch_jsUpper_of_trans htm,
                by rw [transMatch_upper]; exact htm⟩
          rw [hdet]
          show jsUpper (jsUpper (jsTrim s)) = jsUpper (jsTrim s)
          exact jsUpper_idem _
    | technical =>
      obtain ⟨hshf, hnc, hpf, htf, hupEq, hlen3⟩ := (detect_eq_technical_iff _).mp hk
      show formatScreenplay (jsUpper (jsTrim s)) = jsUpper (jsTrim s)
      rw [hupEq]
      apply fs_fixed hTnl hTt
      rw [hk]
      show jsUpper (jsTrim s) = jsTrim s
      exact hupEq
    | action =>
      have hwrap : wrapText (jsTrim s) 60 = jsTrim s := by
        unfold wrapText
        rw [if_pos (by omega)]
      show formatScreenplay (wrapText (jsTrim s) 60) = wrapText (jsTrim s) 60
      rw [hwrap]
      apply fs_fixed hTnl hTt
      rw [hk]
      show wrapText (jsTrim s) 60 = jsTrim s
      exact hwrap

/-- Witness for C1 at the concrete single-line input `"fade in"`. -/
theorem claim_C1_idempotent_short_single_line_witness :
    formatScreenplay (formatScreenplay (("fade in").toList)) =
      formatScreenplay (("fade in").toList) :=
  claim_C1_idempotent_short_single_line (("fade in").toList) (by decide) (by decide)

/-- Counterexample to C1 as stated: `"fade in\nBOB"` formats to
`"FADE IN\nBOB"`, whose first line re-classifies as a Character cue (all
caps, short) and coalesces with `"BOB"` into one block, so a second pass
yields `"FADE IN BOB"`. -/
theorem claim_C1_counterexample :
    formatScreenplay (formatScreenplay (("fade in\nBOB").toList)) ≠
      formatScreenplay (("fade in\nBOB").toList) := by
  decide
